import Mathlib

/-!
Shallow embedding of the cache dump manager implemented in
`src/core/src/cache/dumper.cpp` (namespace `cache`, class `Dumper`).

Conventions of the embedding:

* A wall-clock instant (`TimePoint`, chrono at microsecond resolution after
  `Dumper::Round`) is a natural number.  The broken-down UTC representation
  used by the filename format is obtained positionally from that number
  (field widths 4-2-2-2-2-2-6 digits); this choice preserves every property
  the code and the spec rely on: strict monotonicity, fixed-width rendering,
  injectivity, and the parse/format round trip.  Calendar arithmetic of the
  external `utils::datetime` helpers (which are not part of `src/`) is not
  modelled beyond that.
* The dump directory is the only directory the code touches, so files are
  addressed by their filename; `GenerateDumpPath` / `FilenameToPath` prepend
  `config.dump_directory` and a slash to the names produced by
  `genDumpFilename`, and the filesystem-adapter operations below resolve the
  name part.
* The blocking filesystem adapter (`fs::*`, `boost::filesystem::*`, declared
  outside `src/`) is modelled as pure functions over a directory listing,
  together with a failure oracle `FsOracle` that says which calls raise a
  filesystem error.  C++ exceptions are modelled with `Except`; a `try`
  /`catch` block of the source becomes a `match` on the `Except` value.
-/


/-- Decimal value of a digit character (the decoding used when a regex
capture consisting of digits is converted to an integer). -/
def digitVal (c : Char) : Nat := c.toNat - 48

/-- The decimal digit characters. -/
def digitChar' (d : Nat) : Char :=
  match d with
  | 0 => '0' | 1 => '1' | 2 => '2' | 3 => '3' | 4 => '4'
  | 5 => '5' | 6 => '6' | 7 => '7' | 8 => '8' | _ => '9'

/-- Accumulate one decimal digit character onto a value (most significant
digit first). -/
def accDigit (a : Nat) (c : Char) : Nat := a * 10 + digitVal c

/-- Modelled from the spec: minimal decimal rendering of a natural number
("1+ decimal digits, no leading zeros unless value is 0"), as produced by
`fmt::format` for the version and by `utils::datetime::Timestring` for the
date fields before zero-padding.  Fuel-based so that the kernel can
evaluate it; `natToChars` supplies sufficient fuel. -/
def natToCharsAux : Nat → Nat → List Char → List Char
  | 0, _, acc => acc
  | fuel + 1, n, acc =>
    if n < 10 then digitChar' n :: acc
    else natToCharsAux fuel (n / 10) (digitChar' (n % 10) :: acc)

/-- Minimal decimal rendering of `n`. -/
def natToChars (n : Nat) : List Char := natToCharsAux (n + 1) n []

/-- Zero-pad the decimal rendering of `n` on the left to width `w`
(the `%Y`, `%m`, ..., `%E6S` fields of `kDumpFilenameDateFormat` are
fixed-width and zero-padded). -/
def padChars (w n : Nat) : List Char :=
  List.replicate (w - (natToChars n).length) '0' ++ natToChars n

/-- Modelled from the spec: `utils::datetime::Timestring(time, "UTC",
kDumpFilenameDateFormat)` (declared outside `src/`): the broken-down fields
of the instant rendered as `YYYY-MM-DDTHH:MM:SS.uuuuuu`.  The fields are
read off the microsecond count positionally (see the module comment). -/
def timestringChars (t : Nat) : List Char :=
  padChars 4 (t / 10000000000000000) ++ '-' ::
    (padChars 2 (t / 100000000000000 % 100) ++ '-' ::
      (padChars 2 (t / 1000000000000 % 100) ++ 'T' ::
        (padChars 2 (t / 10000000000 % 100) ++ ':' ::
          (padChars 2 (t / 100000000 % 100) ++ ':' ::
            (padChars 2 (t / 1000000 % 100) ++ '.' ::
              padChars 6 (t % 1000000))))))

/-- Read exactly `k` digit characters, most significant first, extending the
accumulator `acc`; fails on a non-digit or on premature end of input.
Models one fixed-width `\d{k}` group of `Dumper::GenerateFilenameRegex`
together with its decimal decoding. -/
def takeDigits : Nat → Nat → List Char → Option (Nat × List Char)
  | 0, acc, cs => some (acc, cs)
  | k + 1, acc, c :: cs =>
    if c.isDigit then takeDigits k (acc * 10 + digitVal c) cs else none
  | _ + 1, _, [] => none

/-- Consume one expected literal character. -/
def expectChar (ch : Char) : List Char → Option (List Char)
  | c :: cs => if c = ch then some cs else none
  | [] => none

/-- The date-time part of the dump filename grammar:
`\d{4}-\d{2}-\d{2}T\d{2}:\d{2}:\d{2}\.\d{6}` decoded to a `TimePoint`
(capture 1 of `Dumper::GenerateFilenameRegex` plus the
`utils::datetime::Stringtime` decoding, modelled from the spec §4.1:
"decode capture 1 as a UTC instant with the exact format above"). -/
def parseTimestamp (cs : List Char) : Option (Nat × List Char) := do
  let (y, cs) ← takeDigits 4 0 cs
  let cs ← expectChar '-' cs
  let (mo, cs) ← takeDigits 2 0 cs
  let cs ← expectChar '-' cs
  let (d, cs) ← takeDigits 2 0 cs
  let cs ← expectChar 'T' cs
  let (h, cs) ← takeDigits 2 0 cs
  let cs ← expectChar ':' cs
  let (mi, cs) ← takeDigits 2 0 cs
  let cs ← expectChar ':' cs
  let (s, cs) ← takeDigits 2 0 cs
  let cs ← expectChar '.' cs
  let (us, cs) ← takeDigits 6 0 cs
  pure (y * 10000000000000000 + mo * 100000000000000 + d * 1000000000000 +
    h * 10000000000 + mi * 100000000 + s * 1000000 + us, cs)

/-- The version capture `(\d+)` anchored at the end of the name, decoded by
`utils::FromString<uint64_t>` (which accepts leading zeros and throws on
values that do not fit in 64 bits, turning the match into "not a dump"). -/
def parseVersionChars (cs : List Char) : Option Nat :=
  if cs.isEmpty then none
  else if cs.all Char.isDigit then
    let v := cs.foldl accDigit 0
    if v < 18446744073709551616 then some v else none
  else none

/-- Result of `Dumper::ParseDumpName`: `Dumper::ParsedDumpName`. -/
structure ParsedDumpName where
  filename : String
  update_time : Nat
  format_version : Nat
deriving DecidableEq, Repr

/-- `Dumper::ParseDumpName`: match the whole filename against the normal
dump regex `^(\d{4}-\d{2}-\d{2}T\d{2}:\d{2}:\d{2}\.\d{6})-v(\d+)$` and
decode the two captures; any failure yields `none`.  (`Dumper::Round` at
microsecond resolution is the identity of this embedding.) -/
def parseDumpName (filename : String) : Option ParsedDumpName := do
  let (t, cs) ← parseTimestamp filename.data
  let cs ← expectChar '-' cs
  let cs ← expectChar 'v' cs
  let v ← parseVersionChars cs
  pure ⟨filename, t, v⟩

/-- Match against the tmp regex
`^(\d{4}-\d{2}-\d{2}T\d{2}:\d{2}:\d{2}\.\d{6})-v(\d+)\.tmp$`
(`Dumper::GenerateFilenameRegex (FileFormatType::kTmp)`); no decoding is
performed on a tmp match. -/
def matchTmpFilename (filename : String) : Bool :=
  match parseTimestamp filename.data with
  | none => false
  | some (_, cs) =>
    match expectChar '-' cs with
    | none => false
    | some cs =>
      match expectChar 'v' cs with
      | none => false
      | some cs =>
        !(cs.takeWhile Char.isDigit).isEmpty &&
          cs.dropWhile Char.isDigit == ['.', 't', 'm', 'p']

/-- One entry of the dump directory listing: name within the directory,
contents, mode bits, and whether `boost::filesystem::is_regular_file` holds
for it. -/
structure DumpFile where
  name : String
  contents : String
  perms : Nat
  regular : Bool
deriving DecidableEq, Repr

/-- The state of `config.dump_directory`: its listing, in iteration order of
`boost::filesystem::directory_iterator`. -/
abbrev FileSys := List DumpFile

/-- Modelled from the spec: the failure behaviour of the blocking filesystem
adapter (`fs::*` / `boost::filesystem::*`, declared outside `src/`); each
operation "either returns a value or raises a filesystem error" (§4.4), and
the oracle fixes, per target path, which calls raise. -/
structure FsOracle where
  existsFails : String → Bool
  writeFails : String → Bool
  renameFails : String → Bool
  removeFails : String → Bool
  readFails : String → Bool

/-- The oracle of an error-free filesystem: no adapter call raises. -/
def okOracle : FsOracle :=
  ⟨fun _ => false, fun _ => false, fun _ => false, fun _ => false, fun _ => false⟩

/-- First directory entry with the given name (directory listings of real
filesystems carry each name at most once; theorems that depend on this take
a `Nodup` hypothesis). -/
def fsFind (fs : FileSys) (name : String) : Option DumpFile :=
  fs.find? (fun f => f.name == name)

/-- Modelled from the spec: `fs::FileExists` (§4.4 `exists(path) → bool`). -/
def fsFileExists (o : FsOracle) (fs : FileSys) (name : String) :
    Except Unit Bool :=
  if o.existsFails name then .error () else .ok (fsFind fs name).isSome

/-- Modelled from the spec: `fs::ReadFileContents` (§4.4 `read_all`);
raises when the file is absent. -/
def fsReadFileContents (o : FsOracle) (fs : FileSys) (name : String) :
    Except Unit String :=
  if o.readFails name then .error ()
  else
    match fsFind fs name with
    | some f => .ok f.contents
    | none => .error ()

/-- Modelled from the spec: `fs::RewriteFileContentsAtomically` (§4.4
`write_atomic(path, bytes, perms)`): all-or-nothing replacement of the file
at `name`, created with the given permissions. -/
def fsRewriteFileContentsAtomically (o : FsOracle) (fs : FileSys)
    (name contents : String) (perms : Nat) : Except Unit FileSys :=
  if o.writeFails name then .error ()
  else .ok (fs.filter (fun f => !(f.name == name)) ++ [⟨name, contents, perms, true⟩])

/-- Effect of a successful POSIX `rename(old, new)` on the listing: the
entry named `old` takes the name `new`, silently replacing any entry that
already bore that name; renaming a path onto itself is a no-op. -/
def fsRenameEffect (fs : FileSys) (old new : String) : FileSys :=
  if old == new then fs
  else
    (fs.filter (fun f => !(f.name == new))).map
      (fun f => if f.name == old then { f with name := new } else f)

/-- Modelled from the spec: `fs::Rename` (§4.4 `rename(old, new)`). -/
def fsRename (o : FsOracle) (fs : FileSys) (old new : String) :
    Except Unit FileSys :=
  if o.renameFails old then .error () else .ok (fsRenameEffect fs old new)

/-- Modelled from the spec: `boost::filesystem::remove` (§4.4 `remove`). -/
def fsRemove (o : FsOracle) (fs : FileSys) (name : String) :
    Except Unit FileSys :=
  if o.removeFails name then .error ()
  else .ok (fs.filter (fun f => !(f.name == name)))

/-- The fields of `CacheConfigStatic` that `Dumper` reads. -/
structure CacheConfigStatic where
  dump_directory : String
  dump_format_version : Nat
  max_dump_age : Option Nat
  max_dump_count : Nat
deriving Repr

/-- `DumpContents`: the opaque byte buffer of a dump and its logical update
time. -/
structure DumpContents where
  contents : String
  update_time : Nat
deriving DecidableEq, Repr

/-- The permissions `perms::owner_read | perms::owner_write` that
`Dumper::WriteNewDump` passes to the atomic write. -/
def kDumpPerms : Nat := 0o600

/-- The filename part of `Dumper::GenerateDumpPath`:
`Timestring(update_time) ++ "-v" ++ format_version`. -/
def genDumpFilename (update_time : Nat) (config : CacheConfigStatic) :
    String :=
  String.mk (timestringChars update_time ++
    '-' :: 'v' :: natToChars config.dump_format_version)

/-- `Dumper::GenerateDumpPath`: `"{dump_directory}/{filename}"`. -/
def generateDumpPath (update_time : Nat) (config : CacheConfigStatic) :
    String :=
  config.dump_directory ++ "/" ++ genDumpFilename update_time config

/-- `Dumper::MinAcceptableUpdateTime`: `Round(Now()) - max_dump_age` when an
age limit is configured, `TimePoint::min()` (here: 0, truncated Nat
subtraction matching the "everything passes" semantics below the epoch)
otherwise.  `now` abstracts `utils::datetime::Now()` rounded to
microseconds. -/
def minAcceptableUpdateTime (config : CacheConfigStatic) (now : Nat) :
    Nat :=
  match config.max_dump_age with
  | some age => now - age
  | none => 0

/-- `Dumper::WriteNewDump`.  The `fs::FileExists` pre-check sits outside the
`try` block of the source, so a filesystem error raised by it propagates to
the caller (`Except.error`); an error from the atomic write is caught and
turned into `false`. -/
def writeNewDump (o : FsOracle) (config : CacheConfigStatic) (fs : FileSys)
    (dump : DumpContents) : Except Unit (Bool × FileSys) := do
  let dump_path := genDumpFilename dump.update_time config
  let ex ← fsFileExists o fs dump_path
  if ex then
    pure (false, fs)
  else
    match fsRewriteFileContentsAtomically o fs dump_path dump.contents kDumpPerms with
    | .error _ => pure (false, fs)
    | .ok fs' => pure (true, fs')

/-- The body of the directory loop of `Dumper::GetLatestDumpNameBlocking`:
update the best candidate with one directory entry. -/
def scanStep (config : CacheConfigStatic) (min_update_time : Nat)
    (best : Option ParsedDumpName) (file : DumpFile) : Option ParsedDumpName :=
  if !file.regular then best
  else
    match parseDumpName file.name with
    | none => best
    | some curr =>
      if curr.format_version ≠ config.dump_format_version then best
      else if curr.update_time < min_update_time ∧ config.max_dump_age.isSome = true then best
      else
        match best with
        | none => some curr
        | some b => if b.update_time < curr.update_time then some curr else best

/-- The directory loop of `Dumper::GetLatestDumpNameBlocking`. -/
def scanLatest (config : CacheConfigStatic) (min_update_time : Nat) :
    List DumpFile → Option ParsedDumpName → Option ParsedDumpName
  | [], best => best
  | file :: rest, best =>
    scanLatest config min_update_time rest (scanStep config min_update_time best file)

/-- `Dumper::GetLatestDumpNameBlocking` (also `GetLatestDumpName`, which
merely offloads it to the filesystem task processor). -/
def getLatestDumpNameBlocking (config : CacheConfigStatic) (now : Nat)
    (fs : FileSys) : Option String :=
  (scanLatest config (minAcceptableUpdateTime config now) fs none).map
    ParsedDumpName.filename

/-- `Dumper::ReadLatestDump`.  The whole body sits in a `try` block whose
`catch (const std::exception&)` returns `nullopt`, hence the `Except.ok`
at the top; a read error on the chosen file yields `none`. -/
def readLatestDump (o : FsOracle) (config : CacheConfigStatic)
    (now : Nat) (fs : FileSys) : Except Unit (Option DumpContents) :=
  .ok
    (match getLatestDumpNameBlocking config now fs with
     | none => none
     | some filename =>
       match fsReadFileContents o fs filename with
       | .error _ => none
       | .ok contents =>
         match parseDumpName filename with
         | some d => some ⟨contents, d.update_time⟩
         | none => none)

/-- `Dumper::BumpDumpTime`.  Both adapter calls sit inside the `try` block,
and a raised filesystem error is caught (`catch (const
boost::filesystem::filesystem_error&)`) and turned into `false`. -/
def bumpDumpTime (o : FsOracle) (config : CacheConfigStatic) (fs : FileSys)
    (old_update_time new_update_time : Nat) : Bool × FileSys :=
  let old_name := genDumpFilename old_update_time config
  let new_name := genDumpFilename new_update_time config
  match fsFileExists o fs old_name with
  | .error _ => (false, fs)
  | .ok false => (false, fs)
  | .ok true =>
    match fsRename o fs old_name new_name with
    | .error _ => (false, fs)
    | .ok fs' => (true, fs')

/-- The directory loop of `Dumper::CleanupBlocking`: sweep tmp leftovers,
remove expired and older-version dumps, and collect the current-version
survivors.  A raised filesystem error aborts the loop, carrying the
directory state reached so far (the single `try` block of the source wraps
the whole procedure). -/
def cleanupScan (o : FsOracle) (config : CacheConfigStatic)
    (min_update_time : Nat) :
    List DumpFile → FileSys → List ParsedDumpName →
      Except FileSys (FileSys × List ParsedDumpName)
  | [], fs, dumps => .ok (fs, dumps)
  | file :: rest, fs, dumps =>
    if !file.regular then cleanupScan o config min_update_time rest fs dumps
    else if matchTmpFilename file.name then
      match fsRemove o fs file.name with
      | .error _ => .error fs
      | .ok fs' => cleanupScan o config min_update_time rest fs' dumps
    else
      match parseDumpName file.name with
      | none => cleanupScan o config min_update_time rest fs dumps
      | some dump =>
        if dump.format_version < config.dump_format_version ∨
            dump.update_time < min_update_time then
          match fsRemove o fs file.name with
          | .error _ => .error fs
          | .ok fs' => cleanupScan o config min_update_time rest fs' dumps
        else if dump.format_version = config.dump_format_version then
          cleanupScan o config min_update_time rest fs (dumps ++ [dump])
        else
          cleanupScan o config min_update_time rest fs dumps

/-- Insertion step of `std::sort` with comparator
`a.update_time > b.update_time`. -/
def insertByUpdateTimeDesc (d : ParsedDumpName) :
    List ParsedDumpName → List ParsedDumpName
  | [] => [d]
  | x :: xs =>
    if x.update_time < d.update_time then d :: x :: xs
    else x :: insertByUpdateTimeDesc d xs

/-- Sorting the keep-list by `update_time` descending. -/
def sortByUpdateTimeDesc : List ParsedDumpName → List ParsedDumpName
  | [] => []
  | x :: xs => insertByUpdateTimeDesc x (sortByUpdateTimeDesc xs)

/-- The excess-removal loop of `Dumper::CleanupBlocking` (`for (size_t i =
config.max_dump_count; i < dumps.size(); ++i) remove(...)`), applied to the
entries at index ≥ `max_dump_count` of the sorted keep-list.  A raised
error aborts the loop with the state reached so far. -/
def removeExcessDumps (o : FsOracle) :
    List ParsedDumpName → FileSys → Except FileSys FileSys
  | [], fs => .ok fs
  | d :: rest, fs =>
    match fsRemove o fs d.filename with
    | .error _ => .error fs
    | .ok fs' => removeExcessDumps o rest fs'

/-- `Dumper::CleanupBlocking` (also the public `Dumper::Cleanup`, which
offloads it and then reclaims retired config snapshots).  The single
`catch (const std::exception&)` of the source logs and returns, so an
aborted pass leaves the directory in the partially-cleaned state. -/
def cleanupBlocking (o : FsOracle) (config : CacheConfigStatic)
    (now : Nat) (fs : FileSys) : FileSys :=
  let min_update_time := minAcceptableUpdateTime config now
  match cleanupScan o config min_update_time fs fs [] with
  | .error fs' => fs'
  | .ok (fs', dumps) =>
    let sorted := sortByUpdateTimeDesc dumps
    match removeExcessDumps o (sorted.drop config.max_dump_count) fs' with
    | .error fs'' => fs''
    | .ok fs'' => fs''

/-- The filter of `Dumper::GetLatestDumpNameBlocking` as a predicate on a
directory entry: a regular file whose name parses, whose format version
equals the configured one, and which is not skipped by the age filter. -/
def isReadCandidate (config : CacheConfigStatic) (min_update_time : Nat)
    (f : DumpFile) : Bool :=
  f.regular &&
    (match parseDumpName f.name with
     | none => false
     | some d =>
       decide (d.format_version = config.dump_format_version) &&
         !(decide (d.update_time < min_update_time) && config.max_dump_age.isSome))

/-- The removal condition of the directory loop of `Dumper::CleanupBlocking`
as a predicate on a directory entry: a regular file that is a tmp leftover,
or a dump of an older format version, or an expired dump. -/
def scanRemoves (config : CacheConfigStatic) (min_update_time : Nat)
    (f : DumpFile) : Bool :=
  f.regular &&
    (matchTmpFilename f.name ||
      (match parseDumpName f.name with
       | some d =>
         decide (d.format_version < config.dump_format_version ∨
           d.update_time < min_update_time)
       | none => false))

/-- The keep-list condition of the directory loop of
`Dumper::CleanupBlocking`: the parsed name of a regular, non-tmp,
non-removed dump of the current format version. -/
def scanKeep (config : CacheConfigStatic) (min_update_time : Nat)
    (f : DumpFile) : Option ParsedDumpName :=
  if !f.regular then none
  else if matchTmpFilename f.name then none
  else
    match parseDumpName f.name with
    | none => none
    | some dump =>
      if dump.format_version < config.dump_format_version ∨
          dump.update_time < min_update_time then none
      else if dump.format_version = config.dump_format_version then some dump
      else none

/-- A regular directory entry whose name parses as a dump of the configured
format version. -/
def isCurrentVersionDump (config : CacheConfigStatic) (f : DumpFile) : Bool :=
  f.regular &&
    (match parseDumpName f.name with
     | some d => decide (d.format_version = config.dump_format_version)
     | none => false)

/-- Sample config: version 3, no age limit, keep 2 dumps. -/
def cfgA : CacheConfigStatic := ⟨"/d", 3, none, 2⟩

/-- Sample config: version 3, max age 1 second, keep 2 dumps. -/
def cfgB : CacheConfigStatic := ⟨"/d", 3, some 1000000, 2⟩

/-- Sample config: version 7, no age limit, keep 2 dumps. -/
def cfg7 : CacheConfigStatic := ⟨"/d", 7, none, 2⟩

/-- Sample instant 2024-01-02T03:04:05.000000. -/
def tA : Nat := 20240102030405000000

/-- Sample instant 2024-01-02T03:04:15.000000. -/
def tB : Nat := 20240102030415000000

/-- Sample current instant 2024-01-02T03:04:08.000000. -/
def nowEx : Nat := 20240102030408000000

/-- A version-4 dump written at `tA` (older than `nowEx` minus the 1-second
age limit of `cfgB`). -/
def fileV4Old : DumpFile := ⟨"2024-01-02T03:04:05.000000-v4", "x", 384, true⟩

/-- A leftover tmp file. -/
def tmpFileA : DumpFile := ⟨"2024-01-02T03:04:05.000000-v3.tmp", "t1", 384, true⟩

/-- Another leftover tmp file. -/
def tmpFileB : DumpFile := ⟨"2024-01-02T03:04:06.000000-v3.tmp", "t2", 384, true⟩

/-- A dump name whose version field carries leading zeros. -/
def fileLead0 : DumpFile := ⟨"2024-01-02T03:04:05.000000-v007", "z", 384, true⟩

/-- A version-3 dump written at `tA`. -/
def fileDumpA : DumpFile := ⟨"2024-01-02T03:04:05.000000-v3", "hello", 384, true⟩

/-- An oracle under which every `exists` call raises a filesystem error. -/
def failAllExists : FsOracle :=
  ⟨fun _ => true, fun _ => false, fun _ => false, fun _ => false, fun _ => false⟩

/-- An oracle under which removing `tmpFileA` raises a filesystem error and
everything else succeeds. -/
def failRemoveTmpA : FsOracle :=
  ⟨fun _ => false, fun _ => false, fun _ => false,
    fun nm => nm == tmpFileA.name, fun _ => false⟩

/-- A sample dump buffer with update time `tA`. -/
def dumpHello : DumpContents := ⟨"hello", tA⟩

/-- An oracle under which removing `tmpFileB` raises a filesystem error and
everything else succeeds. -/
def failRemoveTmpB : FsOracle :=
  ⟨fun _ => false, fun _ => false, fun _ => false,
    fun nm => nm == tmpFileB.name, fun _ => false⟩

/-- A version-3 dump written at 2024-01-02T03:04:06.000000. -/
def fileDumpB : DumpFile := ⟨"2024-01-02T03:04:06.000000-v3", "b", 384, true⟩

/-- A version-3 dump written at 2024-01-02T03:04:07.000000. -/
def fileDumpC : DumpFile := ⟨"2024-01-02T03:04:07.000000-v3", "c", 384, true⟩

/-- A version-3 dump written at 2024-01-02T03:04:08.000000. -/
def fileDumpD : DumpFile := ⟨"2024-01-02T03:04:08.000000-v3", "d", 384, true⟩

/-- A version-3 dump written at 2024-01-02T03:04:09.000000. -/
def fileDumpE : DumpFile := ⟨"2024-01-02T03:04:09.000000-v3", "e", 384, true⟩

/-- An oracle under which removing `fileDumpB` raises a filesystem error and
everything else succeeds. -/
def failRemoveDumpB : FsOracle :=
  ⟨fun _ => false, fun _ => false, fun _ => false,
    fun nm => nm == fileDumpB.name, fun _ => false⟩

theorem digitChar'_isDigit (d : Nat) : (digitChar' d).isDigit = true := by
  rcases d with _|_|_|_|_|_|_|_|_|d <;> rfl

theorem digitVal_digitChar' (d : Nat) (h : d < 10) :
    digitVal (digitChar' d) = d := by
  interval_cases d <;> decide

theorem natToCharsAux_spec (fuel : Nat) :
    ∀ n acc, n < fuel →
      ∃ ds, natToCharsAux fuel n acc = ds ++ acc ∧
        (∀ c ∈ ds, c.isDigit = true) ∧ ds ≠ [] ∧
        (∀ a, ds.foldl accDigit a = a * 10 ^ ds.length + n) ∧
        (∀ w, 0 < w → n < 10 ^ w → ds.length ≤ w) := by
  induction fuel with
  | zero => intro n acc h; omega
  | succ fuel ih =>
    intro n acc h
    by_cases h10 : n < 10
    · refine ⟨[digitChar' n], ?_, ?_, ?_, ?_, ?_⟩
      · simp [natToCharsAux, h10]
      · intro c hc
        simp only [List.mem_singleton] at hc
        subst hc
        exact digitChar'_isDigit n
      · simp
      · intro a
        simp [List.foldl, accDigit, digitVal_digitChar' n h10]
      · intro w hw _
        simpa using hw
    · have hrec : n / 10 < fuel := by
        have : n / 10 < n := Nat.div_lt_self (by omega) (by omega)
        omega
      obtain ⟨ds', heq, hdig, hne, hfold, hlen⟩ :=
        ih (n / 10) (digitChar' (n % 10) :: acc) hrec
      refine ⟨ds' ++ [digitChar' (n % 10)], ?_, ?_, ?_, ?_, ?_⟩
      · simp only [natToCharsAux, if_neg h10]
        rw [heq, List.append_assoc, List.singleton_append]
      · intro c hc
        rcases List.mem_append.mp hc with hc | hc
        · exact hdig c hc
        · simp only [List.mem_singleton] at hc
          subst hc
          exact digitChar'_isDigit _
      · simp
      · intro a
        rw [List.foldl_append]
        simp only [List.foldl]
        rw [hfold a]
        have hv : digitVal (digitChar' (n % 10)) = n % 10 :=
          digitVal_digitChar' _ (Nat.mod_lt _ (by omega))
        simp only [List.length_append, List.length_singleton, accDigit, hv]
        calc (a * 10 ^ ds'.length + n / 10) * 10 + n % 10
            = a * (10 ^ ds'.length * 10) + (n / 10 * 10 + n % 10) := by ring
          _ = a * 10 ^ (ds'.length + 1) + n := by
              rw [pow_succ]
              congr 1
              omega
      · intro w hw hpow
        rcases w with _ | w'
        · omega
        · rcases Nat.eq_zero_or_pos w' with hw0 | hw0
          · subst hw0
            simp at hpow
            omega
          · have : n / 10 < 10 ^ w' := by
              rw [Nat.div_lt_iff_lt_mul (by omega)]
              calc n < 10 ^ (w' + 1) := hpow
                _ = 10 ^ w' * 10 := by rw [pow_succ]
            have := hlen w' hw0 this
            simp only [List.length_append, List.length_singleton]
            omega

theorem natToChars_spec (n : Nat) :
    (∀ c ∈ natToChars n, c.isDigit = true) ∧ natToChars n ≠ [] ∧
      (∀ a, (natToChars n).foldl accDigit a = a * 10 ^ (natToChars n).length + n) ∧
      (∀ w, 0 < w → n < 10 ^ w → (natToChars n).length ≤ w) := by
  obtain ⟨ds, heq, hdig, hne, hfold, hlen⟩ :=
    natToCharsAux_spec (n + 1) n [] (by omega)
  rw [List.append_nil] at heq
  rw [natToChars, heq]
  exact ⟨hdig, hne, hfold, hlen⟩

theorem padChars_length (w n : Nat) (hw : 0 < w) (hn : n < 10 ^ w) :
    (padChars w n).length = w := by
  have hlen := (natToChars_spec n).2.2.2 w hw hn
  simp only [padChars, List.length_append, List.length_replicate]
  omega

theorem padChars_digits (w n : Nat) :
    ∀ c ∈ padChars w n, c.isDigit = true := by
  intro c hc
  rcases List.mem_append.mp hc with hc | hc
  · rw [List.eq_of_mem_replicate hc]
    rfl
  · exact (natToChars_spec n).1 c hc

theorem foldl_replicate_zero (k : Nat) (a : Nat) :
    (List.replicate k '0').foldl accDigit a = a * 10 ^ k := by
  induction k generalizing a with
  | zero => simp
  | succ k ih =>
    rw [List.replicate_succ]
    simp only [List.foldl]
    rw [ih]
    have : accDigit a '0' = a * 10 := by simp [accDigit, digitVal]
    rw [this, pow_succ]
    ring

theorem padChars_foldl (w n : Nat) (hw : 0 < w) (hn : n < 10 ^ w) (a : Nat) :
    (padChars w n).foldl accDigit a = a * 10 ^ w + n := by
  have hlen := (natToChars_spec n).2.2.2 w hw hn
  rw [padChars, List.foldl_append, foldl_replicate_zero,
    (natToChars_spec n).2.2.1]
  rw [mul_assoc, ← pow_add]
  have hwl : w - (natToChars n).length + (natToChars n).length = w := by omega
  rw [hwl]

theorem takeDigits_exact (ds : List Char) :
    ∀ acc rest, (∀ c ∈ ds, c.isDigit = true) →
      takeDigits ds.length acc (ds ++ rest) =
        some (ds.foldl accDigit acc, rest) := by
  induction ds with
  | nil => intro acc rest _; rfl
  | cons c ds ih =>
    intro acc rest hdig
    have hc : c.isDigit = true := hdig c (List.mem_cons_self c ds)
    simp only [List.length_cons, List.cons_append, takeDigits, hc, if_true,
      List.foldl]
    exact ih (acc * 10 + digitVal c) rest
      (fun x hx => hdig x (List.mem_cons_of_mem c hx))

theorem takeDigits_pad (w n : Nat) (hw : 0 < w) (hn : n < 10 ^ w)
    (acc : Nat) (rest : List Char) :
    takeDigits w acc (padChars w n ++ rest) = some (acc * 10 ^ w + n, rest) := by
  have h := takeDigits_exact (padChars w n) acc rest (padChars_digits w n)
  rw [padChars_length w n hw hn] at h
  rw [h, padChars_foldl w n hw hn acc]

theorem parseTimestamp_timestring (t : Nat) (rest : List Char)
    (ht : t < 100000000000000000000) :
    parseTimestamp (timestringChars t ++ rest) = some (t, rest) := by
  have e4 : (10:Nat) ^ 4 = 10000 := by norm_num
  have e2 : (10:Nat) ^ 2 = 100 := by norm_num
  have e6 : (10:Nat) ^ 6 = 1000000 := by norm_num
  have hY : t / 10000000000000000 < 10 ^ 4 := by rw [e4]; omega
  have hMo : t / 100000000000000 % 100 < 10 ^ 2 := by rw [e2]; omega
  have hD : t / 1000000000000 % 100 < 10 ^ 2 := by rw [e2]; omega
  have hH : t / 10000000000 % 100 < 10 ^ 2 := by rw [e2]; omega
  have hMi : t / 100000000 % 100 < 10 ^ 2 := by rw [e2]; omega
  have hS : t / 1000000 % 100 < 10 ^ 2 := by rw [e2]; omega
  have hUs : t % 1000000 < 10 ^ 6 := by rw [e6]; omega
  rw [timestringChars]
  simp only [List.append_assoc, List.cons_append]
  rw [parseTimestamp]
  rw [takeDigits_pad 4 _ (by norm_num) hY]
  simp only [Option.bind_eq_bind, Option.some_bind, zero_mul, zero_add,
    expectChar, eq_self_iff_true, if_true]
  rw [takeDigits_pad 2 _ (by norm_num) hMo]
  simp only [Option.some_bind, zero_mul, zero_add, expectChar,
    eq_self_iff_true, if_true]
  rw [takeDigits_pad 2 _ (by norm_num) hD]
  simp only [Option.some_bind, zero_mul, zero_add, expectChar,
    eq_self_iff_true, if_true]
  rw [takeDigits_pad 2 _ (by norm_num) hH]
  simp only [Option.some_bind, zero_mul, zero_add, expectChar,
    eq_self_iff_true, if_true]
  rw [takeDigits_pad 2 _ (by norm_num) hMi]
  simp only [Option.some_bind, zero_mul, zero_add, expectChar,
    eq_self_iff_true, if_true]
  rw [takeDigits_pad 2 _ (by norm_num) hS]
  simp only [Option.some_bind, zero_mul, zero_add, expectChar,
    eq_self_iff_true, if_true]
  rw [takeDigits_pad 6 _ (by norm_num) hUs]
  simp only [Option.some_bind, zero_mul, zero_add, pure, Option.some.injEq,
    Prod.mk.injEq]
  exact ⟨by omega, trivial⟩

theorem parseVersionChars_natToChars (v : Nat)
    (hv : v < 18446744073709551616) :
    parseVersionChars (natToChars v) = some v := by
  obtain ⟨hdig, hne, hfold, _⟩ := natToChars_spec v
  have hempty : (natToChars v).isEmpty = false := by
    cases h : natToChars v
    · exact absurd h hne
    · rfl
  have hall : (natToChars v).all Char.isDigit = true :=
    List.all_eq_true.mpr hdig
  rw [parseVersionChars, hempty]
  simp only [Bool.false_eq_true, if_false, hall, if_true]
  rw [hfold 0]
  simp only [zero_mul, zero_add, if_pos hv]

/-- C4: formatting a dump name from any microsecond instant (whose
broken-down year still fits the four-digit field) and any format version
representable in `uint64_t`, then parsing it back, recovers exactly the
instant and the version. -/
theorem parse_generate_roundtrip (config : CacheConfigStatic) (t : Nat)
    (ht : t < 10 ^ 20) (hv : config.dump_format_version < 2 ^ 64) :
    parseDumpName (genDumpFilename t config) =
      some ⟨genDumpFilename t config, t, config.dump_format_version⟩ := by
  have ht' : t < 100000000000000000000 := by
    calc t < 10 ^ 20 := ht
      _ = 100000000000000000000 := by norm_num
  have hv' : config.dump_format_version < 18446744073709551616 := by
    calc config.dump_format_version < 2 ^ 64 := hv
      _ = 18446744073709551616 := by norm_num
  rw [parseDumpName]
  have hdata : (genDumpFilename t config).data =
      timestringChars t ++ '-' :: 'v' :: natToChars config.dump_format_version :=
    rfl
  rw [hdata, parseTimestamp_timestring t _ ht']
  simp only [Option.bind_eq_bind, Option.some_bind, expectChar,
    eq_self_iff_true, if_true]
  rw [parseVersionChars_natToChars _ hv']
  rfl

/-- Witness for C4 at the concrete instant 2024-01-02T03:04:05.000000 and
version 3. -/
theorem parse_generate_roundtrip_witness :
    parseDumpName (genDumpFilename tA cfgA) =
      some ⟨genDumpFilename tA cfgA, tA, cfgA.dump_format_version⟩ :=
  parse_generate_roundtrip cfgA tA (by norm_num [tA]) (by norm_num [cfgA])

/-- C10: a filename whose version field carries leading zeros
(`...-v007`) is accepted by the parser and decodes to the numeric version
7; `ReadLatest` under a version-7 config returns it and `Cleanup` retains
it like any current-version dump, although formatting the same
`(update_time, version)` pair produces the zero-free spelling `...-v7`. -/
theorem parse_leading_zero_version :
    parseDumpName fileLead0.name = some ⟨fileLead0.name, tA, 7⟩ ∧
    readLatestDump okOracle cfg7 nowEx [fileLead0] =
      .ok (some ⟨fileLead0.contents, tA⟩) ∧
    cleanupBlocking okOracle cfg7 nowEx [fileLead0] = [fileLead0] ∧
    genDumpFilename tA cfg7 = String.mk (timestringChars tA ++ ['-', 'v', '7']) ∧
    timestringChars tA ++ ['-', 'v', '7'] ≠ fileLead0.name.data := by
  refine ⟨by decide, by rfl, by decide, by decide, by decide⟩

theorem find?_append_of_all_false {α : Type} (p : α → Bool) (l₁ l₂ : List α)
    (h : ∀ x ∈ l₁, p x = false) :
    List.find? p (l₁ ++ l₂) = List.find? p l₂ := by
  rw [List.find?_append, List.find?_eq_none.mpr (fun x hx => by simp [h x hx])]
  rfl

/-- C2: when no file with the target name exists, a successful `WriteNewDump`
returns `true` and the directory then holds a file named
`format(update_time, dump_format_version)` whose contents are byte-identical
to the provided buffer and whose mode is 0600; all other files are kept. -/
theorem writeNew_success (config : CacheConfigStatic) (fs : FileSys)
    (dump : DumpContents)
    (hne : fsFind fs (genDumpFilename dump.update_time config) = none) :
    ∃ fs', writeNewDump okOracle config fs dump = .ok (true, fs') ∧
      fsFind fs' (genDumpFilename dump.update_time config) =
        some ⟨genDumpFilename dump.update_time config, dump.contents, 0o600, true⟩ ∧
      (∀ g ∈ fs, g.name ≠ genDumpFilename dump.update_time config → g ∈ fs') := by
  refine ⟨fs.filter (fun f => !(f.name == genDumpFilename dump.update_time config)) ++
    [⟨genDumpFilename dump.update_time config, dump.contents, 0o600, true⟩], ?_, ?_, ?_⟩
  · simp only [writeNewDump, fsFileExists, okOracle, Bool.false_eq_true,
      if_false, hne, Option.isSome_none, fsRewriteFileContentsAtomically,
      kDumpPerms]
    rfl
  · rw [fsFind, find?_append_of_all_false]
    · simp [fsFind]
    · intro x hx
      have := (List.mem_filter.mp hx).2
      simpa using this
  · intro g hg hgn
    exact List.mem_append_left _
      (List.mem_filter.mpr ⟨hg, by simpa using hgn⟩)

/-- Witness for C2: writing into an empty directory. -/
theorem writeNew_success_witness :
    ∃ fs', writeNewDump okOracle cfgA [] dumpHello = .ok (true, fs') ∧
      fsFind fs' (genDumpFilename dumpHello.update_time cfgA) =
        some ⟨genDumpFilename dumpHello.update_time cfgA, dumpHello.contents, 0o600, true⟩ ∧
      (∀ g ∈ ([] : FileSys), g.name ≠ genDumpFilename dumpHello.update_time cfgA → g ∈ fs') :=
  writeNew_success cfgA [] dumpHello rfl

/-- C6: `WriteNewDump` whose target name already exists returns `false` and
leaves the directory untouched. -/
theorem writeNew_collision (config : CacheConfigStatic) (fs : FileSys)
    (dump : DumpContents)
    (hex : (fsFind fs (genDumpFilename dump.update_time config)).isSome = true) :
    writeNewDump okOracle config fs dump = .ok (false, fs) := by
  simp only [writeNewDump, fsFileExists, okOracle, Bool.false_eq_true,
    if_false, hex]
  rfl

/-- Witness for C6: rewriting the dump of `fileDumpA` at the same instant. -/
theorem writeNew_collision_witness :
    writeNewDump okOracle cfgA [fileDumpA] dumpHello = .ok (false, [fileDumpA]) :=
  writeNew_collision cfgA [fileDumpA] dumpHello (by decide)

/-- C5: for `old ≤ new`, `BumpDumpTime` returns `false` and changes nothing
when the old dump is absent; when it is present and the rename succeeds it
returns `true`, the old name is gone (when the two names differ), the new
name carries the old contents, and unrelated files are kept. -/
theorem bumpTime_spec (config : CacheConfigStatic) (fs : FileSys)
    (t t' : Nat) (_hle : t ≤ t') :
    (fsFind fs (genDumpFilename t config) = none →
      bumpDumpTime okOracle config fs t t' = (false, fs)) ∧
    (∀ f, fsFind fs (genDumpFilename t config) = some f →
      bumpDumpTime okOracle config fs t t' =
        (true, fsRenameEffect fs (genDumpFilename t config)
          (genDumpFilename t' config)) ∧
      (genDumpFilename t config ≠ genDumpFilename t' config →
        fsFind
          (fsRenameEffect fs (genDumpFilename t config) (genDumpFilename t' config))
          (genDumpFilename t config) = none) ∧
      (∃ g ∈ fsRenameEffect fs (genDumpFilename t config) (genDumpFilename t' config),
        g.name = genDumpFilename t' config ∧ g.contents = f.contents) ∧
      (∀ g ∈ fs, g.name ≠ genDumpFilename t config →
        g.name ≠ genDumpFilename t' config →
        g ∈ fsRenameEffect fs (genDumpFilename t config) (genDumpFilename t' config))) := by
  constructor
  · intro h
    simp only [bumpDumpTime, fsFileExists, okOracle, Bool.false_eq_true,
      if_false, h, Option.isSome_none]
  · intro f hf
    have hf' : fs.find? (fun x => x.name == genDumpFilename t config) = some f := hf
    have hmem : f ∈ fs := List.mem_of_find?_eq_some hf'
    have hp := List.find?_some hf'
    have hfn : f.name = genDumpFilename t config := beq_iff_eq.mp hp
    refine ⟨?_, ?_, ?_, ?_⟩
    · simp only [bumpDumpTime, fsFileExists, okOracle, Bool.false_eq_true,
        if_false, hf, Option.isSome_some, fsRename]
    · intro hneq
      rw [fsFind, List.find?_eq_none]
      intro x hx
      rw [fsRenameEffect, if_neg (by simpa using hneq)] at hx
      obtain ⟨y, hy, rfl⟩ := List.mem_map.mp hx
      by_cases hyo : y.name = genDumpFilename t config
      · simp only [hyo, beq_self_eq_true, if_true]
        simpa using fun hc => hneq hc.symm
      · simp only [beq_eq_false_iff_ne.mpr hyo, if_false]
        simpa using hyo
    · by_cases heq : genDumpFilename t config = genDumpFilename t' config
      · refine ⟨f, ?_, ?_, rfl⟩
        · rw [fsRenameEffect, if_pos (by simpa using heq)]
          exact hmem
        · rw [hfn, heq]
      · refine ⟨{ f with name := genDumpFilename t' config }, ?_, rfl, rfl⟩
        rw [fsRenameEffect, if_neg (by simpa using heq)]
        refine List.mem_map.mpr ⟨f, ?_, ?_⟩
        · refine List.mem_filter.mpr ⟨hmem, ?_⟩
          rw [hfn]
          simpa using heq
        · rw [if_pos (by simpa using hfn)]
    · intro g hg hgo hgn
      by_cases heq : genDumpFilename t config = genDumpFilename t' config
      · rw [fsRenameEffect, if_pos (by simpa using heq)]
        exact hg
      · rw [fsRenameEffect, if_neg (by simpa using heq)]
        refine List.mem_map.mpr ⟨g, ?_, ?_⟩
        · exact List.mem_filter.mpr ⟨hg, by simpa using hgn⟩
        · rw [if_neg (by simpa using hgo)]

/-- Witness for C5: bumping the dump of `fileDumpA` from `tA` to `tB`. -/
theorem bumpTime_spec_witness :
    (fsFind [fileDumpA] (genDumpFilename tA cfgA) = none →
      bumpDumpTime okOracle cfgA [fileDumpA] tA tB = (false, [fileDumpA])) ∧
    (∀ f, fsFind [fileDumpA] (genDumpFilename tA cfgA) = some f →
      bumpDumpTime okOracle cfgA [fileDumpA] tA tB =
        (true, fsRenameEffect [fileDumpA] (genDumpFilename tA cfgA)
          (genDumpFilename tB cfgA)) ∧
      (genDumpFilename tA cfgA ≠ genDumpFilename tB cfgA →
        fsFind
          (fsRenameEffect [fileDumpA] (genDumpFilename tA cfgA) (genDumpFilename tB cfgA))
          (genDumpFilename tA cfgA) = none) ∧
      (∃ g ∈ fsRenameEffect [fileDumpA] (genDumpFilename tA cfgA) (genDumpFilename tB cfgA),
        g.name = genDumpFilename tB cfgA ∧ g.contents = f.contents) ∧
      (∀ g ∈ [fileDumpA], g.name ≠ genDumpFilename tA cfgA →
        g.name ≠ genDumpFilename tB cfgA →
        g ∈ fsRenameEffect [fileDumpA] (genDumpFilename tA cfgA) (genDumpFilename tB cfgA))) :=
  bumpTime_spec cfgA [fileDumpA] tA tB (by decide)

/-- C8 is refuted here: an adapter failure in the `fs::FileExists`
pre-check of `WriteNewDump` (which the source performs outside its `try`
block) propagates out of the operation instead of being converted to
`false`. -/
theorem writeNew_propagates_exists_error :
    writeNewDump failAllExists cfgA [] dumpHello = .error () := rfl

/-- C8 as amended: `ReadLatestDump` never propagates an adapter error, and
`WriteNewDump` propagates one exactly when the `fs::FileExists` pre-check
itself raises (`BumpDumpTime` and `CleanupBlocking` are total by the same
catch-all conversion, as their result types show). -/
theorem dump_operations_error_propagation (o : FsOracle)
    (config : CacheConfigStatic) (now : Nat) (fs : FileSys)
    (dump : DumpContents) :
    (∃ r, readLatestDump o config now fs = .ok r) ∧
    ((∃ e, writeNewDump o config fs dump = .error e) ↔
      o.existsFails (genDumpFilename dump.update_time config) = true) := by
  constructor
  · exact ⟨_, rfl⟩
  · constructor
    · rintro ⟨e, he⟩
      by_contra hne
      have hx : o.existsFails (genDumpFilename dump.update_time config) = false :=
        Bool.not_eq_true _ ▸ Bool.of_not_eq_true hne
      rw [writeNewDump] at he
      simp only [fsFileExists, hx, Bool.false_eq_true, if_false] at he
      by_cases hb : (fsFind fs (genDumpFilename dump.update_time config)).isSome
      · simp [bind, Except.bind, hb, pure, Except.pure] at he
      · simp only [Bool.not_eq_true] at hb
        by_cases hw : o.writeFails (genDumpFilename dump.update_time config)
        · simp [bind, Except.bind, hb, fsRewriteFileContentsAtomically, hw,
            pure, Except.pure] at he
        · simp only [Bool.not_eq_true] at hw
          simp [bind, Except.bind, hb, fsRewriteFileContentsAtomically, hw,
            pure, Except.pure] at he
    · intro h
      refine ⟨(), ?_⟩
      rw [writeNewDump]
      simp [bind, Except.bind, fsFileExists, h]

/-- C9 is refuted here: an adapter failure while removing the first tmp
file (under `failRemoveTmpA`) aborts the whole retention pass, leaving the
second tmp file in place, although the same pass without the failure
removes both. -/
theorem cleanup_abort_counterexample :
    cleanupBlocking failRemoveTmpA cfgA nowEx [tmpFileA, tmpFileB] =
      [tmpFileA, tmpFileB] ∧
    cleanupBlocking okOracle cfgA nowEx [tmpFileA, tmpFileB] = [] :=
  ⟨by decide, by decide⟩

/-- C7 is refuted here: under `cfgB` (current version 3, max age 1 s, now =
`nowEx`) the version-4 dump `fileV4Old` is older than the age threshold and
`CleanupBlocking` removes it, although its format version is strictly
greater than the configured one. -/
theorem cleanup_removes_expired_newer_version :
    parseDumpName fileV4Old.name = some ⟨fileV4Old.name, tA, 4⟩ ∧
    cfgB.dump_format_version = 3 ∧
    cleanupBlocking okOracle cfgB nowEx [fileV4Old] = [] :=
  ⟨by decide, by decide, by decide⟩
theorem parseDumpName_filename {nm : String} {d : ParsedDumpName}
    (h : parseDumpName nm = some d) : d.filename = nm := by
  rw [parseDumpName] at h
  rcases h1 : parseTimestamp nm.data with _ | p
  · rw [h1] at h; simp at h
  · rw [h1] at h
    obtain ⟨t, cs⟩ := p
    simp only [Option.bind_eq_bind, Option.some_bind] at h
    rcases h2 : expectChar '-' cs with _ | cs2
    · rw [h2] at h; simp at h
    · rw [h2] at h
      simp only [Option.some_bind] at h
      rcases h3 : expectChar 'v' cs2 with _ | cs3
      · rw [h3] at h; simp at h
      · rw [h3] at h
        simp only [Option.some_bind] at h
        rcases h4 : parseVersionChars cs3 with _ | v
        · rw [h4] at h; simp at h
        · rw [h4] at h
          simp only [Option.some_bind, pure, Option.some.injEq] at h
          rw [← h]

theorem parseDumpName_not_tmp {nm : String} {d : ParsedDumpName}
    (h : parseDumpName nm = some d) : matchTmpFilename nm = false := by
  rw [parseDumpName] at h
  rcases h1 : parseTimestamp nm.data with _ | p
  · rw [h1] at h; simp at h
  · rw [h1] at h
    obtain ⟨t, cs⟩ := p
    simp only [Option.bind_eq_bind, Option.some_bind] at h
    rcases h2 : expectChar '-' cs with _ | cs2
    · rw [h2] at h; simp at h
    · rw [h2] at h
      simp only [Option.some_bind] at h
      rcases h3 : expectChar 'v' cs2 with _ | cs3
      · rw [h3] at h; simp at h
      · rw [h3] at h
        simp only [Option.some_bind] at h
        rcases h4 : parseVersionChars cs3 with _ | v
        · rw [h4] at h; simp at h
        · rw [parseVersionChars] at h4
          by_cases he : cs3.isEmpty
          · rw [if_pos he] at h4; exact absurd h4 (by simp)
          · rw [if_neg he] at h4
            by_cases ha : cs3.all Char.isDigit
            · have hdw : cs3.dropWhile Char.isDigit = [] :=
                List.dropWhile_eq_nil_iff.mpr
                  (fun x hx => List.all_eq_true.mp ha x hx)
              simp only [matchTmpFilename, h1, h2, h3, hdw]
              simp
            · rw [if_neg ha] at h4; exact absurd h4 (by simp)

theorem scanKeep_some {config : CacheConfigStatic} {min_update_time : Nat}
    {f : DumpFile} {d : ParsedDumpName}
    (h : scanKeep config min_update_time f = some d) :
    parseDumpName f.name = some d ∧
      d.format_version = config.dump_format_version ∧ d.filename = f.name := by
  rw [scanKeep] at h
  split at h
  · exact absurd h (by simp)
  · split at h
    · exact absurd h (by simp)
    · split at h
      · exact absurd h (by simp)
      · rename_i dump hp
        split at h
        · exact absurd h (by simp)
        · split at h
          · rename_i hver
            obtain rfl : dump = d := by exact Option.some.inj h
            exact ⟨hp, hver, parseDumpName_filename hp⟩
          · exact absurd h (by simp)

theorem fsRemove_okOracle (fs : FileSys) (nm : String) :
    fsRemove okOracle fs nm = .ok (fs.filter (fun f => !(f.name == nm))) := rfl

theorem fsRemove_ok_of_not_fails (o : FsOracle) (fs : FileSys) (nm : String)
    (h : o.removeFails nm = false) :
    fsRemove o fs nm = .ok (fs.filter (fun f => !(f.name == nm))) := by
  simp [fsRemove, h]

theorem cleanupScan_ok_any (o : FsOracle) (config : CacheConfigStatic)
    (min_update_time : Nat) (todo : List DumpFile) :
    ∀ (fs : FileSys) (dumps : List ParsedDumpName),
      (∀ g ∈ todo, scanRemoves config min_update_time g = true →
        o.removeFails g.name = false) →
      ∃ fs₁, cleanupScan o config min_update_time todo fs dumps =
          .ok (fs₁, dumps ++ todo.filterMap (scanKeep config min_update_time)) ∧
        fs₁.Sublist fs ∧
        (∀ f ∈ todo, scanRemoves config min_update_time f = true →
          ∀ g ∈ fs₁, g.name ≠ f.name) ∧
        (∀ g ∈ fs, (∀ f ∈ todo, scanRemoves config min_update_time f = true →
          f.name ≠ g.name) → g ∈ fs₁) := by
  induction todo with
  | nil =>
    intro fs dumps _
    exact ⟨fs, by simp [cleanupScan], List.Sublist.refl fs, by simp,
      fun g hg _ => hg⟩
  | cons file rest ih =>
    intro fs dumps hok
    by_cases hreg : file.regular = true
    · by_cases htmp : matchTmpFilename file.name = true
      · -- tmp sweep: the file is removed
        have hrm : scanRemoves config min_update_time file = true := by
          simp [scanRemoves, hreg, htmp]
        have hk : scanKeep config min_update_time file = none := by
          simp [scanKeep, hreg, htmp]
        obtain ⟨fs₁, heq, hsub, hrem, hpres⟩ :=
          ih (fs.filter (fun g => !(g.name == file.name))) dumps (fun g hg hr => hok g (List.mem_cons_of_mem file hg) hr)
        have hremok : fsRemove o fs file.name =
            .ok (fs.filter (fun g => !(g.name == file.name))) :=
          fsRemove_ok_of_not_fails o fs file.name
            (hok file (List.mem_cons_self file rest) hrm)
        refine ⟨fs₁, ?_, ?_, ?_, ?_⟩
        · simp only [cleanupScan, hreg, Bool.not_true, Bool.false_eq_true,
            if_false, htmp, if_true, hremok, heq,
            List.filterMap_cons, hk]
        · exact hsub.trans (List.filter_sublist fs)
        · intro f hf hfrem g hg
          rcases List.mem_cons.mp hf with rfl | hf
          · have hg' := hsub.subset hg
            have := (List.mem_filter.mp hg').2
            simpa using this
          · exact hrem f hf hfrem g hg
        · intro g hg hno
          have hne : file.name ≠ g.name :=
            hno file (List.mem_cons_self file rest) hrm
          refine hpres g (List.mem_filter.mpr ⟨hg, by simpa using Ne.symm hne⟩) ?_
          intro f hf hfrem
          exact hno f (List.mem_cons_of_mem file hf) hfrem
      · rcases hp : parseDumpName file.name with _ | dump
        · -- unparseable: skipped
          have hrm : scanRemoves config min_update_time file = false := by
            simp [scanRemoves, hreg, htmp, hp]
          have hk : scanKeep config min_update_time file = none := by
            simp [scanKeep, hreg, htmp, hp]
          obtain ⟨fs₁, heq, hsub, hrem, hpres⟩ := ih fs dumps (fun g hg hr => hok g (List.mem_cons_of_mem file hg) hr)
          refine ⟨fs₁, ?_, hsub, ?_, ?_⟩
          · simp only [cleanupScan, hreg, Bool.not_true, Bool.false_eq_true,
              if_false, htmp, hp, heq, List.filterMap_cons, hk]
          · intro f hf hfrem g hg
            rcases List.mem_cons.mp hf with rfl | hf
            · rw [hrm] at hfrem; exact absurd hfrem (by simp)
            · exact hrem f hf hfrem g hg
          · intro g hg hno
            refine hpres g hg ?_
            intro f hf hfrem
            exact hno f (List.mem_cons_of_mem file hf) hfrem
        · by_cases hcond : dump.format_version < config.dump_format_version ∨
            dump.update_time < min_update_time
          · -- expired or older version: removed
            have hrm : scanRemoves config min_update_time file = true := by
              simp [scanRemoves, hreg, htmp, hp, hcond]
            have hk : scanKeep config min_update_time file = none := by
              simp [scanKeep, hreg, htmp, hp, hcond]
            obtain ⟨fs₁, heq, hsub, hrem, hpres⟩ :=
              ih (fs.filter (fun g => !(g.name == file.name))) dumps (fun g hg hr => hok g (List.mem_cons_of_mem file hg) hr)
            have hremok : fsRemove o fs file.name =
                .ok (fs.filter (fun g => !(g.name == file.name))) :=
              fsRemove_ok_of_not_fails o fs file.name
                (hok file (List.mem_cons_self file rest) hrm)
            refine ⟨fs₁, ?_, ?_, ?_, ?_⟩
            · simp only [cleanupScan, hreg, Bool.not_true, Bool.false_eq_true,
                if_false, htmp, hp, if_pos hcond, hremok, heq,
                List.filterMap_cons, hk]
            · exact hsub.trans (List.filter_sublist fs)
            · intro f hf hfrem g hg
              rcases List.mem_cons.mp hf with rfl | hf
              · have hg' := hsub.subset hg
                have := (List.mem_filter.mp hg').2
                simpa using this
              · exact hrem f hf hfrem g hg
            · intro g hg hno
              have hne : file.name ≠ g.name :=
                hno file (List.mem_cons_self file rest) hrm
              refine hpres g
                (List.mem_filter.mpr ⟨hg, by simpa using Ne.symm hne⟩) ?_
              intro f hf hfrem
              exact hno f (List.mem_cons_of_mem file hf) hfrem
          · have hrm : scanRemoves config min_update_time file = false := by
              simp [scanRemoves, hreg, htmp, hp, hcond]
            by_cases hcur : dump.format_version = config.dump_format_version
            · -- current version: kept
              have hk : scanKeep config min_update_time file = some dump := by
                simp only [scanKeep, hreg, Bool.not_true, Bool.false_eq_true,
                  if_false, hp, if_neg htmp, if_neg hcond, if_pos hcur]
              obtain ⟨fs₁, heq, hsub, hrem, hpres⟩ := ih fs (dumps ++ [dump]) (fun g hg hr => hok g (List.mem_cons_of_mem file hg) hr)
              refine ⟨fs₁, ?_, hsub, ?_, ?_⟩
              · simp only [cleanupScan, hreg, Bool.not_true, Bool.false_eq_true,
                  if_false, htmp, hp, if_neg hcond, if_pos hcur, heq,
                  List.filterMap_cons, hk, List.append_assoc,
                  List.singleton_append]
              · intro f hf hfrem g hg
                rcases List.mem_cons.mp hf with rfl | hf
                · rw [hrm] at hfrem; exact absurd hfrem (by simp)
                · exact hrem f hf hfrem g hg
              · intro g hg hno
                refine hpres g hg ?_
                intro f hf hfrem
                exact hno f (List.mem_cons_of_mem file hf) hfrem
            · -- newer version: left in place
              have hk : scanKeep config min_update_time file = none := by
                simp only [scanKeep, hreg, Bool.not_true, Bool.false_eq_true,
                  if_false, hp, if_neg htmp, if_neg hcond, if_neg hcur]
              obtain ⟨fs₁, heq, hsub, hrem, hpres⟩ := ih fs dumps (fun g hg hr => hok g (List.mem_cons_of_mem file hg) hr)
              refine ⟨fs₁, ?_, hsub, ?_, ?_⟩
              · simp only [cleanupScan, hreg, Bool.not_true, Bool.false_eq_true,
                  if_false, htmp, hp, if_neg hcond, if_neg hcur, heq,
                  List.filterMap_cons, hk]
              · intro f hf hfrem g hg
                rcases List.mem_cons.mp hf with rfl | hf
                · rw [hrm] at hfrem; exact absurd hfrem (by simp)
                · exact hrem f hf hfrem g hg
              · intro g hg hno
                refine hpres g hg ?_
                intro f hf hfrem
                exact hno f (List.mem_cons_of_mem file hf) hfrem
    · -- not a regular file: skipped entirely
      rw [Bool.not_eq_true] at hreg
      have hrm : scanRemoves config min_update_time file = false := by
        simp [scanRemoves, hreg]
      have hk : scanKeep config min_update_time file = none := by
        simp [scanKeep, hreg]
      obtain ⟨fs₁, heq, hsub, hrem, hpres⟩ := ih fs dumps (fun g hg hr => hok g (List.mem_cons_of_mem file hg) hr)
      refine ⟨fs₁, ?_, hsub, ?_, ?_⟩
      · simp only [cleanupScan, hreg, Bool.not_false, if_true, heq,
          List.filterMap_cons, hk]
      · intro f hf hfrem g hg
        rcases List.mem_cons.mp hf with rfl | hf
        · rw [hrm] at hfrem; exact absurd hfrem (by simp)
        · exact hrem f hf hfrem g hg
      · intro g hg hno
        refine hpres g hg ?_
        intro f hf hfrem
        exact hno f (List.mem_cons_of_mem file hf) hfrem

theorem cleanupScan_ok (config : CacheConfigStatic) (min_update_time : Nat)
    (todo : List DumpFile) :
    ∀ (fs : FileSys) (dumps : List ParsedDumpName),
      ∃ fs₁, cleanupScan okOracle config min_update_time todo fs dumps =
          .ok (fs₁, dumps ++ todo.filterMap (scanKeep config min_update_time)) ∧
        fs₁.Sublist fs ∧
        (∀ f ∈ todo, scanRemoves config min_update_time f = true →
          ∀ g ∈ fs₁, g.name ≠ f.name) ∧
        (∀ g ∈ fs, (∀ f ∈ todo, scanRemoves config min_update_time f = true →
          f.name ≠ g.name) → g ∈ fs₁) :=
  fun fs dumps =>
    cleanupScan_ok_any okOracle config min_update_time todo fs dumps
      (fun _ _ _ => rfl)

theorem removeExcess_ok (l : List ParsedDumpName) :
    ∀ fs : FileSys, ∃ fs₂, removeExcessDumps okOracle l fs = .ok fs₂ ∧
      fs₂.Sublist fs ∧
      (∀ d ∈ l, ∀ g ∈ fs₂, g.name ≠ d.filename) ∧
      (∀ g ∈ fs, (∀ d ∈ l, d.filename ≠ g.name) → g ∈ fs₂) := by
  induction l with
  | nil =>
    intro fs
    exact ⟨fs, rfl, List.Sublist.refl fs, by simp, fun g hg _ => hg⟩
  | cons d rest ih =>
    intro fs
    obtain ⟨fs₂, heq, hsub, hrem, hpres⟩ :=
      ih (fs.filter (fun g => !(g.name == d.filename)))
    refine ⟨fs₂, ?_, hsub.trans (List.filter_sublist fs), ?_, ?_⟩
    · simp only [removeExcessDumps, fsRemove_okOracle, heq]
    · intro d' hd' g hg
      rcases List.mem_cons.mp hd' with rfl | hd'
      · have := (List.mem_filter.mp (hsub.subset hg)).2
        simpa using this
      · exact hrem d' hd' g hg
    · intro g hg hno
      refine hpres g (List.mem_filter.mpr ⟨hg, ?_⟩) ?_
      · simpa using Ne.symm (hno d (List.mem_cons_self d rest))
      · intro d' hd'
        exact hno d' (List.mem_cons_of_mem d hd')

theorem insertByUpdateTimeDesc_perm (d : ParsedDumpName)
    (l : List ParsedDumpName) :
    (insertByUpdateTimeDesc d l).Perm (d :: l) := by
  induction l with
  | nil => exact List.Perm.refl _
  | cons x xs ih =>
    rw [insertByUpdateTimeDesc]
    by_cases h : x.update_time < d.update_time
    · rw [if_pos h]
    · rw [if_neg h]
      exact (ih.cons x).trans (List.Perm.swap d x xs)

theorem sortByUpdateTimeDesc_perm (l : List ParsedDumpName) :
    (sortByUpdateTimeDesc l).Perm l := by
  induction l with
  | nil => exact List.Perm.refl _
  | cons x xs ih =>
    rw [sortByUpdateTimeDesc]
    exact (insertByUpdateTimeDesc_perm x (sortByUpdateTimeDesc xs)).trans (ih.cons x)

/-- C7 as amended: `CleanupBlocking` leaves every regular file whose parsed
format version is strictly greater than the configured one in place,
provided its update time is not below `now - max_dump_age` (which is always
the case when `max_dump_age` is unset); an expired newer-version file,
however, is removed by the disjunctive test of the source. -/
theorem cleanup_preserves_newer_version (config : CacheConfigStatic)
    (now : Nat) (fs : FileSys) (f : DumpFile) (d : ParsedDumpName)
    (hf : f ∈ fs) (hp : parseDumpName f.name = some d)
    (hv : config.dump_format_version < d.format_version)
    (ha : ¬ d.update_time < minAcceptableUpdateTime config now) :
    f ∈ cleanupBlocking okOracle config now fs := by
  set min := minAcceptableUpdateTime config now with hmin
  obtain ⟨fs₁, heq, hsub, hrem, hpres⟩ := cleanupScan_ok config min fs fs []
  rw [List.nil_append] at heq
  set ds := fs.filterMap (scanKeep config min) with hds
  set excess := (sortByUpdateTimeDesc ds).drop config.max_dump_count with hex
  obtain ⟨fs₂, heq₂, hsub₂, hrem₂, hpres₂⟩ := removeExcess_ok excess fs₁
  have hmain : cleanupBlocking okOracle config now fs = fs₂ := by
    simp only [cleanupBlocking, ← hmin, heq, ← hex, heq₂]
  rw [hmain]
  have hf₁ : f ∈ fs₁ := by
    refine hpres f hf ?_
    intro f' hf' hrm'
    by_contra hnn
    rw [scanRemoves, hnn, hp, parseDumpName_not_tmp hp] at hrm'
    have hv' : ¬ d.format_version < config.dump_format_version := by omega
    simp [hv', ha] at hrm'
  refine hpres₂ f hf₁ ?_
  intro d' hd'
  have hd's : d' ∈ sortByUpdateTimeDesc ds := List.drop_subset _ _ hd'
  have hd'ds : d' ∈ ds := (sortByUpdateTimeDesc_perm ds).subset hd's
  obtain ⟨g, hg, hkg⟩ := List.mem_filterMap.mp hd'ds
  obtain ⟨hpg, hvg, hfg⟩ := scanKeep_some hkg
  intro hdf
  rw [hfg] at hdf
  rw [hdf] at hpg
  rw [hp] at hpg
  obtain rfl : d' = d := (Option.some.inj hpg).symm
  omega

/-- Witness for the amended C7: a version-4 dump survives cleanup under a
version-3 config without an age limit. -/
theorem cleanup_preserves_newer_version_witness :
    fileV4Old ∈ cleanupBlocking okOracle cfgA nowEx [fileV4Old] :=
  cleanup_preserves_newer_version cfgA nowEx [fileV4Old] fileV4Old
    ⟨fileV4Old.name, tA, 4⟩ (by decide) (by decide) (by decide) (by decide)

/-- C3: on a directory listing with distinct names, an error-free
`CleanupBlocking` pass leaves at most `max_dump_count` regular files of the
current format version; every remaining regular current-version file is
within the age window; and no regular tmp-matching file and no regular
older-version dump remains. -/
theorem cleanup_retention (config : CacheConfigStatic) (now : Nat)
    (fs : FileSys) (hnd : (fs.map DumpFile.name).Nodup)
    (fs' : FileSys) (hfs' : fs' = cleanupBlocking okOracle config now fs) :
    (fs'.filter (isCurrentVersionDump config)).length ≤ config.max_dump_count ∧
    (∀ f ∈ fs', ∀ d, f.regular = true → parseDumpName f.name = some d →
      d.format_version = config.dump_format_version →
      ¬ d.update_time < minAcceptableUpdateTime config now) ∧
    (∀ f ∈ fs', f.regular = true → matchTmpFilename f.name = false) ∧
    (∀ f ∈ fs', ∀ d, f.regular = true → parseDumpName f.name = some d →
      ¬ d.format_version < config.dump_format_version) := by
  set min := minAcceptableUpdateTime config now with hmin
  obtain ⟨fs₁, heq, hsub, hrem, hpres⟩ := cleanupScan_ok config min fs fs []
  rw [List.nil_append] at heq
  set ds := fs.filterMap (scanKeep config min) with hds
  set excess := (sortByUpdateTimeDesc ds).drop config.max_dump_count with hex
  obtain ⟨fs₂, heq₂, hsub₂, hrem₂, hrs₂⟩ := removeExcess_ok excess fs₁
  have hmain : cleanupBlocking okOracle config now fs = fs₂ := by
    simp only [cleanupBlocking, ← hmin, heq, ← hex, heq₂]
  rw [hfs', hmain]
  have hmemfs : ∀ g ∈ fs₂, g ∈ fs := fun g hg => hsub.subset (hsub₂.subset hg)
  have hsurv : ∀ g ∈ fs₂, ¬ scanRemoves config min g = true := by
    intro g hg hrm
    exact hrem g (hmemfs g hg) hrm g (hsub₂.subset hg) rfl
  have hage : ∀ f ∈ fs₂, ∀ d, f.regular = true → parseDumpName f.name = some d →
      d.format_version = config.dump_format_version → ¬ d.update_time < min := by
    intro f hf d hreg hp _ hlt
    refine hsurv f hf ?_
    rw [scanRemoves, hreg, hp, parseDumpName_not_tmp hp]
    simp [hlt]
  have htmp : ∀ f ∈ fs₂, f.regular = true → matchTmpFilename f.name = false := by
    intro f hf hreg
    by_contra hb
    rw [Bool.not_eq_false] at hb
    refine hsurv f hf ?_
    rw [scanRemoves, hreg, hb]
    simp
  have hold : ∀ f ∈ fs₂, ∀ d, f.regular = true → parseDumpName f.name = some d →
      ¬ d.format_version < config.dump_format_version := by
    intro f hf d hreg hp hlt
    refine hsurv f hf ?_
    rw [scanRemoves, hreg, hp, parseDumpName_not_tmp hp]
    simp [hlt]
  refine ⟨?_, hage, htmp, hold⟩
  -- the count bound
  have hsubmap : ∀ g ∈ fs₂.filter (isCurrentVersionDump config),
      g.name ∈ ((sortByUpdateTimeDesc ds).take config.max_dump_count).map
        ParsedDumpName.filename := by
    intro g hg
    obtain ⟨hg₂, hcur⟩ := List.mem_filter.mp hg
    rw [isCurrentVersionDump] at hcur
    obtain ⟨hreg, hcur⟩ := Bool.and_eq_true_iff.mp hcur
    rcases hpq : parseDumpName g.name with _ | d
    · rw [hpq] at hcur; simp at hcur
    · rw [hpq] at hcur
      have hdv : d.format_version = config.dump_format_version := by
        simpa using hcur
      have hkg : scanKeep config min g = some d := by
        rw [scanKeep]
        simp only [hreg, Bool.not_true, Bool.false_eq_true, if_false,
          parseDumpName_not_tmp hpq, hpq]
        rw [if_neg, if_pos hdv]
        rintro (hc | hc)
        · exact hold g hg₂ d hreg hpq hc
        · exact hage g hg₂ d hreg hpq hdv hc
      have hdds : d ∈ ds := by
        rw [hds]
        exact List.mem_filterMap.mpr ⟨g, hmemfs g hg₂, hkg⟩
      have hdsort : d ∈ sortByUpdateTimeDesc ds :=
        ((sortByUpdateTimeDesc_perm ds).symm).subset hdds
      have hsplit := List.take_append_drop config.max_dump_count
        (sortByUpdateTimeDesc ds)
      rw [← hsplit] at hdsort
      rcases List.mem_append.mp hdsort with htake | hdrop
      · have hdf : d.filename = g.name := (scanKeep_some hkg).2.2
        rw [← hdf]
        exact List.mem_map_of_mem ParsedDumpName.filename htake
      · exfalso
        have := hrem₂ d (hex ▸ hdrop) g hg₂
        exact this (scanKeep_some hkg).2.2.symm
  have hnodup : ((fs₂.filter (isCurrentVersionDump config)).map DumpFile.name).Nodup := by
    refine hnd.sublist ?_
    exact ((List.filter_sublist fs₂).trans (hsub₂.trans hsub)).map DumpFile.name
  calc (fs₂.filter (isCurrentVersionDump config)).length
      = ((fs₂.filter (isCurrentVersionDump config)).map DumpFile.name).length := by
        rw [List.length_map]
    _ ≤ (((sortByUpdateTimeDesc ds).take config.max_dump_count).map
          ParsedDumpName.filename).length := by
        refine (hnodup.subperm ?_).length_le
        intro nm hnm
        obtain ⟨g, hgS, rfl⟩ := List.mem_map.mp hnm
        exact hsubmap g hgS
    _ ≤ config.max_dump_count := by
        rw [List.length_map]
        exact List.length_take_le _ _

/-- Witness for C3 on a concrete mixed directory (current dump, tmp file,
expired newer-version dump, leading-zero name) under the aged config. -/
theorem cleanup_retention_witness :
    ((cleanupBlocking okOracle cfgB nowEx
        [fileDumpA, tmpFileA, fileV4Old, fileLead0]).filter
      (isCurrentVersionDump cfgB)).length ≤ cfgB.max_dump_count ∧
    (∀ f ∈ cleanupBlocking okOracle cfgB nowEx
        [fileDumpA, tmpFileA, fileV4Old, fileLead0], ∀ d,
      f.regular = true → parseDumpName f.name = some d →
      d.format_version = cfgB.dump_format_version →
      ¬ d.update_time < minAcceptableUpdateTime cfgB nowEx) ∧
    (∀ f ∈ cleanupBlocking okOracle cfgB nowEx
        [fileDumpA, tmpFileA, fileV4Old, fileLead0],
      f.regular = true → matchTmpFilename f.name = false) ∧
    (∀ f ∈ cleanupBlocking okOracle cfgB nowEx
        [fileDumpA, tmpFileA, fileV4Old, fileLead0], ∀ d,
      f.regular = true → parseDumpName f.name = some d →
      ¬ d.format_version < cfgB.dump_format_version) :=
  cleanup_retention cfgB nowEx [fileDumpA, tmpFileA, fileV4Old, fileLead0]
    (by decide) _ rfl

theorem isReadCandidate_elim {config : CacheConfigStatic}
    {min_update_time : Nat} {f : DumpFile}
    (h : isReadCandidate config min_update_time f = true) :
    f.regular = true ∧ ∃ d, parseDumpName f.name = some d ∧
      d.format_version = config.dump_format_version ∧
      ¬(d.update_time < min_update_time ∧ config.max_dump_age.isSome = true) := by
  rw [isReadCandidate] at h
  obtain ⟨hreg, h⟩ := Bool.and_eq_true_iff.mp h
  refine ⟨hreg, ?_⟩
  rcases hp : parseDumpName f.name with _ | d
  · rw [hp] at h; simp at h
  · rw [hp] at h
    obtain ⟨hver, hage⟩ := Bool.and_eq_true_iff.mp h
    refine ⟨d, rfl, of_decide_eq_true hver, ?_⟩
    intro ⟨hlt, hsome⟩
    rw [Bool.not_eq_true', Bool.and_eq_false_iff] at hage
    rcases hage with hage | hage
    · exact absurd hlt (of_decide_eq_false hage)
    · rw [hsome] at hage; simp at hage

theorem isReadCandidate_intro {config : CacheConfigStatic}
    {min_update_time : Nat} {f : DumpFile} {d : ParsedDumpName}
    (hreg : f.regular = true) (hp : parseDumpName f.name = some d)
    (hver : d.format_version = config.dump_format_version)
    (hage : ¬(d.update_time < min_update_time ∧ config.max_dump_age.isSome = true)) :
    isReadCandidate config min_update_time f = true := by
  by_cases hlt : d.update_time < min_update_time
  · have hso : config.max_dump_age.isSome = false := by
      rcases Bool.eq_false_or_eq_true config.max_dump_age.isSome with h | h
      · exact absurd ⟨hlt, h⟩ hage
      · exact h
    simp [isReadCandidate, hreg, hp, hver, hso]
  · simp [isReadCandidate, hreg, hp, hver, hlt]

theorem scanStep_not_candidate {config : CacheConfigStatic}
    {min_update_time : Nat} (best : Option ParsedDumpName) {f : DumpFile}
    (h : isReadCandidate config min_update_time f = false) :
    scanStep config min_update_time best f = best := by
  by_cases hreg : f.regular = true
  · rcases hp : parseDumpName f.name with _ | d
    · simp [scanStep, hreg, hp]
    · rw [isReadCandidate, hreg, hp] at h
      simp only [Bool.true_and, Bool.and_eq_false_iff] at h
      rcases h with h | h
      · have hne : d.format_version ≠ config.dump_format_version :=
          fun hc => by simp [hc] at h
        simp [scanStep, hreg, hp, hne]
      · rw [Bool.not_eq_false'] at h
        obtain ⟨hlt, hsome⟩ := Bool.and_eq_true_iff.mp h
        have hlt' : d.update_time < min_update_time := of_decide_eq_true hlt
        by_cases hver : d.format_version = config.dump_format_version
        · simp [scanStep, hreg, hp, hver, hlt', hsome]
        · simp [scanStep, hreg, hp, hver]
  · rw [Bool.not_eq_true] at hreg
    simp [scanStep, hreg]

theorem scanStep_mono (config : CacheConfigStatic) (min_update_time : Nat)
    (best : Option ParsedDumpName) (f : DumpFile) (b₀ : ParsedDumpName)
    (hb : best = some b₀) :
    ∃ b', scanStep config min_update_time best f = some b' ∧
      b₀.update_time ≤ b'.update_time := by
  subst hb
  by_cases hreg : f.regular = true
  · rcases hp : parseDumpName f.name with _ | d
    · exact ⟨b₀, by simp [scanStep, hreg, hp], le_refl _⟩
    · by_cases hver : d.format_version = config.dump_format_version
      · by_cases hage : d.update_time < min_update_time ∧
          config.max_dump_age.isSome = true
        · exact ⟨b₀, by simp [scanStep, hreg, hp, hver, hage], le_refl _⟩
        · by_cases hcmp : b₀.update_time < d.update_time
          · exact ⟨d, by simp [scanStep, hreg, hp, hver, hage, hcmp],
              le_of_lt hcmp⟩
          · exact ⟨b₀, by simp [scanStep, hreg, hp, hver, hage, hcmp],
              le_refl _⟩
      · exact ⟨b₀, by simp [scanStep, hreg, hp, hver], le_refl _⟩
  · rw [Bool.not_eq_true] at hreg
    exact ⟨b₀, by simp [scanStep, hreg], le_refl _⟩

theorem scanStep_candidate (config : CacheConfigStatic) (min_update_time : Nat)
    (best : Option ParsedDumpName) (f : DumpFile) (d : ParsedDumpName)
    (hc : isReadCandidate config min_update_time f = true)
    (hp : parseDumpName f.name = some d) :
    ∃ b', scanStep config min_update_time best f = some b' ∧
      d.update_time ≤ b'.update_time := by
  obtain ⟨hreg, d', hp', hver, hage⟩ := isReadCandidate_elim hc
  rw [hp] at hp'
  have hd : d = d' := Option.some.inj hp'
  subst hd
  rcases best with _ | b₀
  · exact ⟨d, by simp [scanStep, hreg, hp, hver, hage], le_refl _⟩
  · by_cases hcmp : b₀.update_time < d.update_time
    · exact ⟨d, by simp [scanStep, hreg, hp, hver, hage, hcmp], le_refl _⟩
    · exact ⟨b₀, by simp [scanStep, hreg, hp, hver, hage, hcmp],
        le_of_not_lt hcmp⟩

theorem scanStep_provenance (config : CacheConfigStatic)
    (min_update_time : Nat) (best : Option ParsedDumpName) (f : DumpFile)
    (b' : ParsedDumpName)
    (h : scanStep config min_update_time best f = some b') :
    best = some b' ∨ (isReadCandidate config min_update_time f = true ∧
      parseDumpName f.name = some b') := by
  by_cases hreg : f.regular = true
  · rcases hp : parseDumpName f.name with _ | d
    · left
      rw [scanStep] at h
      simp only [hreg, Bool.not_true, Bool.false_eq_true, if_false, hp] at h
      exact h
    · by_cases hver : d.format_version = config.dump_format_version
      · by_cases hage : d.update_time < min_update_time ∧
          config.max_dump_age.isSome = true
        · left
          rw [scanStep] at h
          simp only [hreg, Bool.not_true, Bool.false_eq_true, if_false, hp] at h
          rw [if_neg (by simp [hver]), if_pos hage] at h
          exact h
        · rcases best with _ | b₀
          · right
            rw [scanStep] at h
            simp only [hreg, Bool.not_true, Bool.false_eq_true, if_false,
              hp] at h
            rw [if_neg (by simp [hver]), if_neg hage] at h
            obtain rfl : d = b' := Option.some.inj h
            exact ⟨isReadCandidate_intro hreg hp hver hage, rfl⟩
          · rw [scanStep] at h
            simp only [hreg, Bool.not_true, Bool.false_eq_true, if_false,
              hp] at h
            rw [if_neg (by simp [hver]), if_neg hage] at h
            by_cases hcmp : b₀.update_time < d.update_time
            · right
              rw [if_pos hcmp] at h
              obtain rfl : d = b' := Option.some.inj h
              exact ⟨isReadCandidate_intro hreg hp hver hage, rfl⟩
            · left
              rw [if_neg hcmp] at h
              exact h
      · left
        rw [scanStep] at h
        simp only [hreg, Bool.not_true, Bool.false_eq_true, if_false, hp] at h
        rw [if_pos (by simp [hver])] at h
        exact h
  · left
    rw [Bool.not_eq_true] at hreg
    rw [scanStep] at h
    simp only [hreg, Bool.not_false, if_true] at h
    exact h

theorem scanLatest_some (config : CacheConfigStatic) (min_update_time : Nat)
    (files : List DumpFile) :
    ∀ (best : Option ParsedDumpName) (b₀ : ParsedDumpName), best = some b₀ →
      ∃ b, scanLatest config min_update_time files best = some b := by
  induction files with
  | nil =>
    intro best b₀ hb
    exact ⟨b₀, by rw [scanLatest, hb]⟩
  | cons f rest ih =>
    intro best b₀ hb
    obtain ⟨b₁, hstep, _⟩ := scanStep_mono config min_update_time best f b₀ hb
    rw [scanLatest]
    exact ih _ b₁ hstep

theorem scanLatest_no_candidate (config : CacheConfigStatic)
    (min_update_time : Nat) (files : List DumpFile) :
    ∀ best, (∀ f ∈ files, isReadCandidate config min_update_time f = false) →
      scanLatest config min_update_time files best = best := by
  induction files with
  | nil => intro best _; rfl
  | cons f rest ih =>
    intro best h
    rw [scanLatest,
      scanStep_not_candidate best (h f (List.mem_cons_self f rest))]
    exact ih best (fun g hg => h g (List.mem_cons_of_mem f hg))

theorem scanLatest_found (config : CacheConfigStatic) (min_update_time : Nat)
    (files : List DumpFile) :
    ∀ best f, f ∈ files → isReadCandidate config min_update_time f = true →
      ∃ b, scanLatest config min_update_time files best = some b := by
  induction files with
  | nil => intro _ f hf _; exact absurd hf (List.not_mem_nil f)
  | cons g rest ih =>
    intro best f hf hc
    rw [scanLatest]
    rcases List.mem_cons.mp hf with rfl | hf
    · obtain ⟨_, d, hp, _, _⟩ := isReadCandidate_elim hc
      obtain ⟨b₁, hstep, _⟩ :=
        scanStep_candidate config min_update_time best f d hc hp
      exact scanLatest_some config min_update_time rest _ b₁ hstep
    · exact ih _ f hf hc

theorem scanLatest_provenance (config : CacheConfigStatic)
    (min_update_time : Nat) (files : List DumpFile) :
    ∀ best b, scanLatest config min_update_time files best = some b →
      best = some b ∨ ∃ f ∈ files, isReadCandidate config min_update_time f = true ∧
        parseDumpName f.name = some b := by
  induction files with
  | nil => intro best b h; left; exact h
  | cons f rest ih =>
    intro best b h
    rw [scanLatest] at h
    rcases ih _ b h with hstep | ⟨g, hg, hcand, hpg⟩
    · rcases scanStep_provenance config min_update_time best f b hstep with
        h' | ⟨hc, hp⟩
      · left; exact h'
      · right; exact ⟨f, List.mem_cons_self f rest, hc, hp⟩
    · right; exact ⟨g, List.mem_cons_of_mem f hg, hcand, hpg⟩

theorem scanLatest_max (config : CacheConfigStatic) (min_update_time : Nat)
    (files : List DumpFile) :
    ∀ best b, scanLatest config min_update_time files best = some b →
      (∀ b₀, best = some b₀ → b₀.update_time ≤ b.update_time) ∧
      (∀ f ∈ files, ∀ d, isReadCandidate config min_update_time f = true →
        parseDumpName f.name = some d → d.update_time ≤ b.update_time) := by
  induction files with
  | nil =>
    intro best b h
    refine ⟨?_, ?_⟩
    · intro b₀ hb
      rw [scanLatest] at h
      rw [hb] at h
      rw [Option.some.inj h]
    · intro f hf
      exact absurd hf (List.not_mem_nil f)
  | cons f rest ih =>
    intro best b h
    rw [scanLatest] at h
    obtain ⟨ihbest, ihrest⟩ := ih _ b h
    refine ⟨?_, ?_⟩
    · intro b₀ hb
      obtain ⟨b₁, hstep, hle⟩ :=
        scanStep_mono config min_update_time best f b₀ hb
      exact le_trans hle (ihbest b₁ hstep)
    · intro g hg d hc hp
      rcases List.mem_cons.mp hg with rfl | hg
      · obtain ⟨b₁, hstep, hle⟩ :=
          scanStep_candidate config min_update_time best g d hc hp
        exact le_trans hle (ihbest b₁ hstep)
      · exact ihrest g hg d hc hp

theorem fsFind_of_mem (fs : FileSys) (f : DumpFile)
    (hnd : (fs.map DumpFile.name).Nodup) (hf : f ∈ fs) :
    fsFind fs f.name = some f := by
  induction fs with
  | nil => exact absurd hf (List.not_mem_nil f)
  | cons g rest ih =>
    rw [List.map_cons, List.nodup_cons] at hnd
    rcases List.mem_cons.mp hf with rfl | hf
    · simp [fsFind]
    · have hne : g.name ≠ f.name := by
        intro hc
        exact hnd.1 (hc ▸ List.mem_map_of_mem DumpFile.name hf)
      rw [fsFind, List.find?_cons_of_neg]
      · exact ih hnd.2 hf
      · simp [hne]

theorem readLatest_eval_some (config : CacheConfigStatic) (now : Nat)
    (fs : FileSys) (b : ParsedDumpName) (f : DumpFile)
    (hscan : scanLatest config (minAcceptableUpdateTime config now) fs none =
      some b)
    (hbf : b.filename = f.name)
    (hfind : fsFind fs f.name = some f)
    (hp : parseDumpName f.name = some b) :
    readLatestDump okOracle config now fs =
      .ok (some ⟨f.contents, b.update_time⟩) := by
  rw [readLatestDump, getLatestDumpNameBlocking, hscan]
  simp only [Option.map_some', fsReadFileContents, okOracle, hbf, hfind, hp,
    Bool.false_eq_true, if_false]

/-- C1: on a directory listing with distinct names, `ReadLatestDump` under
an error-free filesystem returns `none` exactly when no regular file parses
to the configured format version inside the age window, and otherwise
returns the contents and parsed update time of such a candidate file whose
update time is maximal among all candidates. -/
theorem readLatest_correct (config : CacheConfigStatic) (now : Nat)
    (fs : FileSys) (hnd : (fs.map DumpFile.name).Nodup) :
    (readLatestDump okOracle config now fs = .ok none ↔
      ∀ f ∈ fs, isReadCandidate config (minAcceptableUpdateTime config now) f =
        false) ∧
    (∀ dc, readLatestDump okOracle config now fs = .ok (some dc) →
      ∃ f ∈ fs, ∃ d, parseDumpName f.name = some d ∧
        isReadCandidate config (minAcceptableUpdateTime config now) f = true ∧
        dc.contents = f.contents ∧ dc.update_time = d.update_time ∧
        (∀ g ∈ fs, ∀ e, parseDumpName g.name = some e →
          isReadCandidate config (minAcceptableUpdateTime config now) g = true →
          e.update_time ≤ d.update_time)) := by
  set min := minAcceptableUpdateTime config now with hmin
  rcases hscan : scanLatest config min fs none with _ | b
  · have hnone : readLatestDump okOracle config now fs = .ok none := by
      rw [readLatestDump, getLatestDumpNameBlocking, ← hmin, hscan]
      rfl
    constructor
    · rw [hnone]
      constructor
      · intro _ f hf
        by_contra hb
        rw [Bool.not_eq_false] at hb
        obtain ⟨b, hsome⟩ := scanLatest_found config min fs none f hf hb
        rw [hsome] at hscan
        exact Option.noConfusion hscan
      · intro _
        rfl
    · intro dc hdc
      rw [hnone] at hdc
      exact absurd (Except.ok.inj hdc) (by simp)
  · rcases scanLatest_provenance config min fs none b hscan with
      habs | ⟨f, hf, hcand, hpf⟩
    · exact absurd habs (by simp)
    · have hbf : b.filename = f.name := parseDumpName_filename hpf
      have hfind : fsFind fs f.name = some f := fsFind_of_mem fs f hnd hf
      have heval : readLatestDump okOracle config now fs =
          .ok (some ⟨f.contents, b.update_time⟩) :=
        readLatest_eval_some config now fs b f hscan hbf hfind hpf
      constructor
      · rw [heval]
        constructor
        · intro hno
          exact absurd (Except.ok.inj hno) (by simp)
        · intro hall
          rw [hall f hf] at hcand
          exact absurd hcand (by simp)
      · intro dc hdc
        rw [heval] at hdc
        have hdc' := Option.some.inj (Except.ok.inj hdc)
        refine ⟨f, hf, b, hpf, hcand, ?_, ?_, ?_⟩
        · rw [← hdc']
        · rw [← hdc']
        · intro g hg e hpe hce
          exact (scanLatest_max config min fs none b hscan).2 g hg e hce hpe

/-- Witness for C1 on a concrete mixed directory: a current-version dump, a
tmp leftover, a newer-version dump and a leading-zero-version name. -/
theorem readLatest_correct_witness :
    (readLatestDump okOracle cfgB nowEx
        [fileDumpA, tmpFileA, fileV4Old, fileLead0] = .ok none ↔
      ∀ f ∈ [fileDumpA, tmpFileA, fileV4Old, fileLead0],
        isReadCandidate cfgB (minAcceptableUpdateTime cfgB nowEx) f = false) ∧
    (∀ dc, readLatestDump okOracle cfgB nowEx
        [fileDumpA, tmpFileA, fileV4Old, fileLead0] = .ok (some dc) →
      ∃ f ∈ [fileDumpA, tmpFileA, fileV4Old, fileLead0],
        ∃ d, parseDumpName f.name = some d ∧
        isReadCandidate cfgB (minAcceptableUpdateTime cfgB nowEx) f = true ∧
        dc.contents = f.contents ∧ dc.update_time = d.update_time ∧
        (∀ g ∈ [fileDumpA, tmpFileA, fileV4Old, fileLead0], ∀ e,
          parseDumpName g.name = some e →
          isReadCandidate cfgB (minAcceptableUpdateTime cfgB nowEx) g = true →
          e.update_time ≤ d.update_time)) :=
  readLatest_correct cfgB nowEx [fileDumpA, tmpFileA, fileV4Old, fileLead0]
    (by decide)

theorem scanKeep_not_removes {config : CacheConfigStatic}
    {min_update_time : Nat} {f : DumpFile} {d : ParsedDumpName}
    (h : scanKeep config min_update_time f = some d) :
    scanRemoves config min_update_time f = false := by
  rw [scanKeep] at h
  split at h
  · exact absurd h (by simp)
  · rename_i hregn
    split at h
    · exact absurd h (by simp)
    · rename_i htmpn
      split at h
      · exact absurd h (by simp)
      · rename_i dump hp
        split at h
        · exact absurd h (by simp)
        · rename_i hcondn
          have hreg : f.regular = true := by
            rcases Bool.eq_false_or_eq_true f.regular with hr | hr
            · exact hr
            · exact absurd (by simp [hr]) hregn
          have htmp : matchTmpFilename f.name = false := by
            rcases Bool.eq_false_or_eq_true (matchTmpFilename f.name) with ht | ht
            · exact absurd ht htmpn
            · exact ht
          rw [scanRemoves, hreg, htmp, hp]
          simp [hcondn]

theorem cleanupScan_abort (o : FsOracle) (config : CacheConfigStatic)
    (min_update_time : Nat) (pre : List DumpFile) :
    ∀ (f : DumpFile) (post : List DumpFile) (fs : FileSys)
      (dumps : List ParsedDumpName),
      (∀ g ∈ pre, scanRemoves config min_update_time g = true →
        o.removeFails g.name = false) →
      scanRemoves config min_update_time f = true →
      o.removeFails f.name = true →
      ∃ fs', cleanupScan o config min_update_time (pre ++ f :: post) fs dumps =
          .error fs' ∧
        fs'.Sublist fs ∧
        (∀ g ∈ pre, scanRemoves config min_update_time g = true →
          ∀ h ∈ fs', h.name ≠ g.name) ∧
        (∀ h ∈ fs, (∀ g ∈ pre, scanRemoves config min_update_time g = true →
          g.name ≠ h.name) → h ∈ fs') := by
  induction pre with
  | nil =>
    intro f post fs dumps _ hf hfail
    have hferr : fsRemove o fs f.name = .error () := by
      simp [fsRemove, hfail]
    rw [scanRemoves] at hf
    obtain ⟨hreg, hor⟩ := Bool.and_eq_true_iff.mp hf
    refine ⟨fs, ?_, List.Sublist.refl fs, by simp, fun h hh _ => hh⟩
    by_cases htmp : matchTmpFilename f.name = true
    · simp only [List.nil_append, cleanupScan, hreg, Bool.not_true,
        Bool.false_eq_true, if_false, htmp, if_true, hferr]
    · rcases Bool.or_eq_true_iff.mp hor with h | h
      · exact absurd h htmp
      · rcases hp : parseDumpName f.name with _ | dump
        · rw [hp] at h; exact absurd h (by simp)
        · rw [hp] at h
          have hcond : dump.format_version < config.dump_format_version ∨
              dump.update_time < min_update_time := of_decide_eq_true h
          simp only [List.nil_append, cleanupScan, hreg, Bool.not_true,
            Bool.false_eq_true, if_false, htmp, hp, if_pos hcond, hferr]
  | cons g pre' ih =>
    intro f post fs dumps hpre hf hfail
    have hpre' : ∀ g' ∈ pre', scanRemoves config min_update_time g' = true →
        o.removeFails g'.name = false :=
      fun g' hg' hr => hpre g' (List.mem_cons_of_mem g hg') hr
    by_cases hreg : g.regular = true
    · by_cases htmp : matchTmpFilename g.name = true
      · -- tmp sweep of g succeeds
        have hrm : scanRemoves config min_update_time g = true := by
          simp [scanRemoves, hreg, htmp]
        have hremok : fsRemove o fs g.name =
            .ok (fs.filter (fun x => !(x.name == g.name))) :=
          fsRemove_ok_of_not_fails o fs g.name
            (hpre g (List.mem_cons_self g pre') hrm)
        obtain ⟨fs', heq, hsub, hrem, hpres⟩ :=
          ih f post (fs.filter (fun x => !(x.name == g.name))) dumps hpre' hf hfail
        refine ⟨fs', ?_, hsub.trans (List.filter_sublist fs), ?_, ?_⟩
        · simp only [List.cons_append, cleanupScan, hreg, Bool.not_true,
            Bool.false_eq_true, if_false, htmp, if_true, hremok, List.append_eq, heq]
        · intro g' hg' hrm' h hh
          rcases List.mem_cons.mp hg' with rfl | hg'
          · have := (List.mem_filter.mp (hsub.subset hh)).2
            simpa using this
          · exact hrem g' hg' hrm' h hh
        · intro h hh hno
          have hne : g.name ≠ h.name :=
            hno g (List.mem_cons_self g pre') hrm
          refine hpres h
            (List.mem_filter.mpr ⟨hh, by simpa using Ne.symm hne⟩) ?_
          intro g' hg' hrm'
          exact hno g' (List.mem_cons_of_mem g hg') hrm'
      · rcases hp : parseDumpName g.name with _ | dump
        · -- unparseable: skipped
          have hrm : scanRemoves config min_update_time g = false := by
            simp [scanRemoves, hreg, htmp, hp]
          obtain ⟨fs', heq, hsub, hrem, hpres⟩ :=
            ih f post fs dumps hpre' hf hfail
          refine ⟨fs', ?_, hsub, ?_, ?_⟩
          · simp only [List.cons_append, cleanupScan, hreg, Bool.not_true,
              Bool.false_eq_true, if_false, htmp, hp, List.append_eq, heq]
          · intro g' hg' hrm' h hh
            rcases List.mem_cons.mp hg' with rfl | hg'
            · rw [hrm] at hrm'; exact absurd hrm' (by simp)
            · exact hrem g' hg' hrm' h hh
          · intro h hh hno
            refine hpres h hh ?_
            intro g' hg' hrm'
            exact hno g' (List.mem_cons_of_mem g hg') hrm'
        · by_cases hcond : dump.format_version < config.dump_format_version ∨
            dump.update_time < min_update_time
          · -- expired or older version: removed, removal succeeds
            have hrm : scanRemoves config min_update_time g = true := by
              simp [scanRemoves, hreg, htmp, hp, hcond]
            have hremok : fsRemove o fs g.name =
                .ok (fs.filter (fun x => !(x.name == g.name))) :=
              fsRemove_ok_of_not_fails o fs g.name
                (hpre g (List.mem_cons_self g pre') hrm)
            obtain ⟨fs', heq, hsub, hrem, hpres⟩ :=
              ih f post (fs.filter (fun x => !(x.name == g.name))) dumps
                hpre' hf hfail
            refine ⟨fs', ?_, hsub.trans (List.filter_sublist fs), ?_, ?_⟩
            · simp only [List.cons_append, cleanupScan, hreg, Bool.not_true,
                Bool.false_eq_true, if_false, htmp, hp, if_pos hcond, hremok,
                List.append_eq, heq]
            · intro g' hg' hrm' h hh
              rcases List.mem_cons.mp hg' with rfl | hg'
              · have := (List.mem_filter.mp (hsub.subset hh)).2
                simpa using this
              · exact hrem g' hg' hrm' h hh
            · intro h hh hno
              have hne : g.name ≠ h.name :=
                hno g (List.mem_cons_self g pre') hrm
              refine hpres h
                (List.mem_filter.mpr ⟨hh, by simpa using Ne.symm hne⟩) ?_
              intro g' hg' hrm'
              exact hno g' (List.mem_cons_of_mem g hg') hrm'
          · have hrm : scanRemoves config min_update_time g = false := by
              simp [scanRemoves, hreg, htmp, hp, hcond]
            by_cases hcur : dump.format_version = config.dump_format_version
            · -- current version: kept
              obtain ⟨fs', heq, hsub, hrem, hpres⟩ :=
                ih f post fs (dumps ++ [dump]) hpre' hf hfail
              refine ⟨fs', ?_, hsub, ?_, ?_⟩
              · simp only [List.cons_append, cleanupScan, hreg, Bool.not_true,
                  Bool.false_eq_true, if_false, htmp, hp, if_neg hcond,
                  if_pos hcur, List.append_eq, heq]
              · intro g' hg' hrm' h hh
                rcases List.mem_cons.mp hg' with rfl | hg'
                · rw [hrm] at hrm'; exact absurd hrm' (by simp)
                · exact hrem g' hg' hrm' h hh
              · intro h hh hno
                refine hpres h hh ?_
                intro g' hg' hrm'
                exact hno g' (List.mem_cons_of_mem g hg') hrm'
            · -- newer version: left in place
              obtain ⟨fs', heq, hsub, hrem, hpres⟩ :=
                ih f post fs dumps hpre' hf hfail
              refine ⟨fs', ?_, hsub, ?_, ?_⟩
              · simp only [List.cons_append, cleanupScan, hreg, Bool.not_true,
                  Bool.false_eq_true, if_false, htmp, hp, if_neg hcond,
                  if_neg hcur, List.append_eq, heq]
              · intro g' hg' hrm' h hh
                rcases List.mem_cons.mp hg' with rfl | hg'
                · rw [hrm] at hrm'; exact absurd hrm' (by simp)
                · exact hrem g' hg' hrm' h hh
              · intro h hh hno
                refine hpres h hh ?_
                intro g' hg' hrm'
                exact hno g' (List.mem_cons_of_mem g hg') hrm'
    · -- not a regular file: skipped entirely
      rw [Bool.not_eq_true] at hreg
      have hrm : scanRemoves config min_update_time g = false := by
        simp [scanRemoves, hreg]
      obtain ⟨fs', heq, hsub, hrem, hpres⟩ :=
        ih f post fs dumps hpre' hf hfail
      refine ⟨fs', ?_, hsub, ?_, ?_⟩
      · simp only [List.cons_append, cleanupScan, hreg, Bool.not_false,
          if_true, List.append_eq, heq]
      · intro g' hg' hrm' h hh
        rcases List.mem_cons.mp hg' with rfl | hg'
        · rw [hrm] at hrm'; exact absurd hrm' (by simp)
        · exact hrem g' hg' hrm' h hh
      · intro h hh hno
        refine hpres h hh ?_
        intro g' hg' hrm'
        exact hno g' (List.mem_cons_of_mem g hg') hrm'

theorem removeExcess_abort (o : FsOracle) (epre : List ParsedDumpName) :
    ∀ (e : ParsedDumpName) (epost : List ParsedDumpName) (fs : FileSys),
      (∀ d ∈ epre, o.removeFails d.filename = false) →
      o.removeFails e.filename = true →
      ∃ fs₂, removeExcessDumps o (epre ++ e :: epost) fs = .error fs₂ ∧
        fs₂.Sublist fs ∧
        (∀ d ∈ epre, ∀ h ∈ fs₂, h.name ≠ d.filename) ∧
        (∀ h ∈ fs, (∀ d ∈ epre, d.filename ≠ h.name) → h ∈ fs₂) := by
  induction epre with
  | nil =>
    intro e epost fs _ hfail
    have herr : fsRemove o fs e.filename = .error () := by
      simp [fsRemove, hfail]
    refine ⟨fs, ?_, List.Sublist.refl fs, by simp, fun h hh _ => hh⟩
    simp only [List.nil_append, removeExcessDumps, herr]
  | cons d epre' ih =>
    intro e epost fs hok hfail
    have hremok : fsRemove o fs d.filename =
        .ok (fs.filter (fun x => !(x.name == d.filename))) :=
      fsRemove_ok_of_not_fails o fs d.filename
        (hok d (List.mem_cons_self d epre'))
    obtain ⟨fs₂, heq, hsub, hrem, hpres⟩ :=
      ih e epost (fs.filter (fun x => !(x.name == d.filename)))
        (fun d' hd' => hok d' (List.mem_cons_of_mem d hd')) hfail
    refine ⟨fs₂, ?_, hsub.trans (List.filter_sublist fs), ?_, ?_⟩
    · simp only [List.cons_append, removeExcessDumps, hremok,
        List.append_eq, heq]
    · intro d' hd' h hh
      rcases List.mem_cons.mp hd' with rfl | hd'
      · have := (List.mem_filter.mp (hsub.subset hh)).2
        simpa using this
      · exact hrem d' hd' h hh
    · intro h hh hno
      refine hpres h (List.mem_filter.mpr ⟨hh, ?_⟩) ?_
      · simpa using Ne.symm (hno d (List.mem_cons_self d epre'))
      · intro d' hd'
        exact hno d' (List.mem_cons_of_mem d hd')

theorem filterMap_scanKeep_names (config : CacheConfigStatic)
    (min_update_time : Nat) (fs : FileSys) :
    (fs.filterMap (scanKeep config min_update_time)).map ParsedDumpName.filename =
      (fs.filter (fun g => (scanKeep config min_update_time g).isSome)).map
        DumpFile.name := by
  induction fs with
  | nil => rfl
  | cons g rest ih =>
    rcases hk : scanKeep config min_update_time g with _ | d
    · simp [List.filterMap_cons, hk, List.filter_cons, ih]
    · have hdf : d.filename = g.name := (scanKeep_some hk).2.2
      simp [List.filterMap_cons, hk, List.filter_cons, ih, hdf]

theorem cleanupBlocking_scan_abort (o : FsOracle) (config : CacheConfigStatic)
    (now : Nat) (pre : List DumpFile) (f : DumpFile) (post : List DumpFile)
    (hnd : ((pre ++ f :: post).map DumpFile.name).Nodup)
    (hpre : ∀ g ∈ pre,
      scanRemoves config (minAcceptableUpdateTime config now) g = true →
      o.removeFails g.name = false)
    (hf : scanRemoves config (minAcceptableUpdateTime config now) f = true)
    (hfail : o.removeFails f.name = true) :
    ∃ fs', cleanupBlocking o config now (pre ++ f :: post) = fs' ∧
      (∀ g ∈ pre,
        scanRemoves config (minAcceptableUpdateTime config now) g = true →
        g ∉ fs') ∧
      (∀ g ∈ pre,
        scanRemoves config (minAcceptableUpdateTime config now) g = false →
        g ∈ fs') ∧
      f ∈ fs' ∧ (∀ g ∈ post, g ∈ fs') := by
  set min := minAcceptableUpdateTime config now with hmin
  obtain ⟨fs', heq, _, hrem, hpres⟩ :=
    cleanupScan_abort o config min pre f post (pre ++ f :: post) [] hpre hf hfail
  have hdisj : List.Disjoint (pre.map DumpFile.name)
      ((f :: post).map DumpFile.name) :=
    List.disjoint_of_nodup_append (by rw [List.map_append] at hnd; exact hnd)
  have hmain : cleanupBlocking o config now (pre ++ f :: post) = fs' := by
    simp only [cleanupBlocking, ← hmin, heq]
  refine ⟨fs', hmain, ?_, ?_, ?_, ?_⟩
  · intro g hg hrm hgfs
    exact hrem g hg hrm g hgfs rfl
  · intro g hg hrm
    refine hpres g (List.mem_append_left _ hg) ?_
    intro g' hg' hrm'
    by_contra hname
    have hgg : g' = g := List.inj_on_of_nodup_map hnd
      (List.mem_append_left _ hg') (List.mem_append_left _ hg) hname
    rw [hgg, hrm] at hrm'
    exact absurd hrm' (by simp)
  · refine hpres f (List.mem_append_right _ (List.mem_cons_self f post)) ?_
    intro g' hg' _
    intro hname
    exact hdisj (List.mem_map_of_mem DumpFile.name hg')
      (hname ▸ List.mem_map_of_mem DumpFile.name (List.mem_cons_self f post))
  · intro g hg
    refine hpres g
      (List.mem_append_right _ (List.mem_cons_of_mem f hg)) ?_
    intro g' hg' _
    intro hname
    exact hdisj (List.mem_map_of_mem DumpFile.name hg')
      (hname ▸ List.mem_map_of_mem DumpFile.name (List.mem_cons_of_mem f hg))

theorem cleanupBlocking_excess_abort (o : FsOracle)
    (config : CacheConfigStatic) (now : Nat) (fs : FileSys)
    (hnd : (fs.map DumpFile.name).Nodup)
    (hscanok : ∀ g ∈ fs,
      scanRemoves config (minAcceptableUpdateTime config now) g = true →
      o.removeFails g.name = false)
    (epre : List ParsedDumpName) (e : ParsedDumpName)
    (epost : List ParsedDumpName)
    (hsplit : (sortByUpdateTimeDesc (fs.filterMap
        (scanKeep config (minAcceptableUpdateTime config now)))).drop
        config.max_dump_count = epre ++ e :: epost)
    (hepre : ∀ d ∈ epre, o.removeFails d.filename = false)
    (hefail : o.removeFails e.filename = true) :
    ∃ fs', cleanupBlocking o config now fs = fs' ∧
      (∀ d ∈ epre, ∀ h ∈ fs', h.name ≠ d.filename) ∧
      (∀ d ∈ e :: epost, ∃ h ∈ fs', h.name = d.filename) := by
  set min := minAcceptableUpdateTime config now with hmin
  obtain ⟨fs₁, heq, hsub, hrem, hpres⟩ :=
    cleanupScan_ok_any o config min fs fs [] hscanok
  rw [List.nil_append] at heq
  set ds := fs.filterMap (scanKeep config min) with hds
  obtain ⟨fs₂, heq₂, hsub₂, hrem₂, hpres₂⟩ :=
    removeExcess_abort o epre e epost fs₁ hepre hefail
  have hmain : cleanupBlocking o config now fs = fs₂ := by
    simp only [cleanupBlocking, ← hmin, heq]
    rw [hsplit, heq₂]
  -- distinct filenames along the sorted keep-list
  have hdsnd : (ds.map ParsedDumpName.filename).Nodup := by
    rw [hds, filterMap_scanKeep_names]
    exact hnd.sublist
      ((List.filter_sublist fs).map DumpFile.name)
  have hsortnd :
      ((sortByUpdateTimeDesc ds).map ParsedDumpName.filename).Nodup :=
    (((sortByUpdateTimeDesc_perm ds).map ParsedDumpName.filename).nodup_iff).mpr
      hdsnd
  have hdropnd : ((epre ++ e :: epost).map ParsedDumpName.filename).Nodup := by
    rw [← hsplit]
    exact hsortnd.sublist
      ((List.drop_sublist _ _).map ParsedDumpName.filename)
  have hedisj : List.Disjoint (epre.map ParsedDumpName.filename)
      ((e :: epost).map ParsedDumpName.filename) :=
    List.disjoint_of_nodup_append (by rw [List.map_append] at hdropnd; exact hdropnd)
  refine ⟨fs₂, hmain, hrem₂, ?_⟩
  intro d hd
  have hdds : d ∈ ds := by
    have hdsort : d ∈ sortByUpdateTimeDesc ds := by
      refine List.drop_subset config.max_dump_count _ ?_
      rw [hsplit]
      exact List.mem_append_right _ hd
    exact (sortByUpdateTimeDesc_perm ds).subset hdsort
  obtain ⟨g, hgfs, hkg⟩ := List.mem_filterMap.mp (hds ▸ hdds)
  have hgrm : scanRemoves config min g = false := scanKeep_not_removes hkg
  have hdf : d.filename = g.name := (scanKeep_some hkg).2.2
  have hg₁ : g ∈ fs₁ := by
    refine hpres g hgfs ?_
    intro g' hg' hrm'
    by_contra hname
    have hgg : g' = g := List.inj_on_of_nodup_map hnd hg' hgfs hname
    rw [hgg, hgrm] at hrm'
    exact absurd hrm' (by simp)
  have hg₂ : g ∈ fs₂ := by
    refine hpres₂ g hg₁ ?_
    intro d' hd' hname
    refine hedisj (List.mem_map_of_mem ParsedDumpName.filename hd') ?_
    rw [hname, ← hdf]
    exact List.mem_map_of_mem ParsedDumpName.filename hd
  exact ⟨g, hg₂, hdf.symm⟩

/-- C9 as amended: a per-file failure during the retention pass is caught
(Cleanup returns a directory state instead of propagating), but it aborts
the remaining per-file work of that pass.  First part: a removal failure
at any position of the directory loop — tmp-sweep or expiry removal alike —
leaves every earlier file fully treated (earlier tmp leftovers and expired
or older-version dumps are gone, the other earlier files are kept), while
the failing file and every file after it keep their state and no
excess-count removal happens at all.  Second part: a removal failure in
the excess-count loop removes only the excess entries before the failing
one; the files of the failing and of all later excess entries stay. -/
theorem cleanup_abort_on_failure (o : FsOracle) (config : CacheConfigStatic)
    (now : Nat) :
    (∀ (pre : List DumpFile) (f : DumpFile) (post : List DumpFile),
      ((pre ++ f :: post).map DumpFile.name).Nodup →
      (∀ g ∈ pre,
        scanRemoves config (minAcceptableUpdateTime config now) g = true →
        o.removeFails g.name = false) →
      scanRemoves config (minAcceptableUpdateTime config now) f = true →
      o.removeFails f.name = true →
      ∃ fs', cleanupBlocking o config now (pre ++ f :: post) = fs' ∧
        (∀ g ∈ pre,
          scanRemoves config (minAcceptableUpdateTime config now) g = true →
          g ∉ fs') ∧
        (∀ g ∈ pre,
          scanRemoves config (minAcceptableUpdateTime config now) g = false →
          g ∈ fs') ∧
        f ∈ fs' ∧ (∀ g ∈ post, g ∈ fs')) ∧
    (∀ (fs : FileSys) (epre : List ParsedDumpName) (e : ParsedDumpName)
        (epost : List ParsedDumpName),
      (fs.map DumpFile.name).Nodup →
      (∀ g ∈ fs,
        scanRemoves config (minAcceptableUpdateTime config now) g = true →
        o.removeFails g.name = false) →
      (sortByUpdateTimeDesc (fs.filterMap
          (scanKeep config (minAcceptableUpdateTime config now)))).drop
        config.max_dump_count = epre ++ e :: epost →
      (∀ d ∈ epre, o.removeFails d.filename = false) →
      o.removeFails e.filename = true →
      ∃ fs', cleanupBlocking o config now fs = fs' ∧
        (∀ d ∈ epre, ∀ h ∈ fs', h.name ≠ d.filename) ∧
        (∀ d ∈ e :: epost, ∃ h ∈ fs', h.name = d.filename)) :=
  ⟨fun pre f post hnd hpre hf hfail =>
      cleanupBlocking_scan_abort o config now pre f post hnd hpre hf hfail,
    fun fs epre e epost hnd hscanok hsplit hepre hefail =>
      cleanupBlocking_excess_abort o config now fs hnd hscanok epre e epost
        hsplit hepre hefail⟩

/-- Witness for the amended C9.  Scan phase: with the second tmp file's
removal failing, the first tmp file is still swept, the current-version
dump before the failure is kept, and the failing tmp file and the
version-4 dump after it keep their state.  Excess phase: among five
current-version dumps with `max_dump_count = 2`, a failure removing the
second-oldest excess dump leaves it and the oldest one in place while the
excess dump processed before it is gone. -/
theorem cleanup_abort_on_failure_witness :
    (∃ fs', cleanupBlocking failRemoveTmpB cfgA nowEx
        ([tmpFileA, fileDumpA] ++ tmpFileB :: [fileV4Old]) = fs' ∧
      (∀ g ∈ [tmpFileA, fileDumpA],
        scanRemoves cfgA (minAcceptableUpdateTime cfgA nowEx) g = true →
        g ∉ fs') ∧
      (∀ g ∈ [tmpFileA, fileDumpA],
        scanRemoves cfgA (minAcceptableUpdateTime cfgA nowEx) g = false →
        g ∈ fs') ∧
      tmpFileB ∈ fs' ∧ (∀ g ∈ [fileV4Old], g ∈ fs')) ∧
    (∃ fs', cleanupBlocking failRemoveDumpB cfgA nowEx
        [fileDumpA, fileDumpB, fileDumpC, fileDumpD, fileDumpE] = fs' ∧
      (∀ d ∈ [(⟨fileDumpC.name, 20240102030407000000, 3⟩ : ParsedDumpName)],
        ∀ h ∈ fs', h.name ≠ d.filename) ∧
      (∀ d ∈ [(⟨fileDumpB.name, 20240102030406000000, 3⟩ : ParsedDumpName),
          (⟨fileDumpA.name, 20240102030405000000, 3⟩ : ParsedDumpName)],
        ∃ h ∈ fs', h.name = d.filename)) :=
  ⟨(cleanup_abort_on_failure failRemoveTmpB cfgA nowEx).1
      [tmpFileA, fileDumpA] tmpFileB [fileV4Old]
      (by decide) (by decide) (by decide) (by decide),
    (cleanup_abort_on_failure failRemoveDumpB cfgA nowEx).2
      [fileDumpA, fileDumpB, fileDumpC, fileDumpD, fileDumpE]
      [⟨fileDumpC.name, 20240102030407000000, 3⟩]
      ⟨fileDumpB.name, 20240102030406000000, 3⟩
      [⟨fileDumpA.name, 20240102030405000000, 3⟩]
      (by decide) (by decide) (by decide) (by decide) (by decide)⟩
